import Mathlib

/-!
Shallow embedding of the `ftb` Markdown table formatter (src/lib.rs).

Strings are modelled as `List Char`.  The display-width table provided by the
external `unicode_width` crate is abstracted as a parameter `w : Char → Nat`;
`strWidth w s` models `UnicodeWidthStr::width(s)` as the sum of per-character
widths.  Rust `usize` arithmetic appears only as `Nat` additions,
multiplications and truncated subtraction (`saturating_sub` is exactly `Nat`
subtraction); no overflow is reachable at the modelled sizes.  A Rust `panic`
(out-of-bounds slice index) is modelled by `Option`: `none` means the
original program would panic.
-/

namespace Ftb

abbrev Str := List Char

def str (s : String) : Str := s.toList

/-- Models Rust `char::is_whitespace` (the Unicode `White_Space` property). -/
def isWhitespaceChar (c : Char) : Bool :=
  c.toNat = 0x09 || c.toNat = 0x0A || c.toNat = 0x0B || c.toNat = 0x0C ||
  c.toNat = 0x0D || c.toNat = 0x20 || c.toNat = 0x85 || c.toNat = 0xA0 ||
  c.toNat = 0x1680 || (0x2000 ≤ c.toNat && c.toNat ≤ 0x200A) ||
  c.toNat = 0x2028 || c.toNat = 0x2029 || c.toNat = 0x202F ||
  c.toNat = 0x205F || c.toNat = 0x3000

/-- Models Rust `str::trim`: drop whitespace from both ends. -/
def trimStr (s : Str) : Str :=
  ((s.dropWhile isWhitespaceChar).reverse.dropWhile isWhitespaceChar).reverse

/-- Strips one trailing carriage return from a line that was terminated by
`'\n'` (`str::lines` recognizes both `"\n"` and `"\r\n"` as terminators). -/
def stripCR (l : Str) : Str :=
  if l.getLast? = some '\r' then l.dropLast else l

/-- The contribution of the final `'\n'`-split piece to `str::lines`: an empty
final piece means the document ended in a terminator and yields nothing; a
nonempty final piece is an unterminated last line and is kept verbatim — in
particular a bare trailing `'\r'` (not followed by `'\n'`) is preserved. -/
def lastPiece (parts : List Str) : List Str :=
  match parts.getLast? with
  | some [] => []
  | some l => [l]
  | none => []

/-- Models Rust `str::lines`: split at `'\n'`; every piece before a `'\n'` was
terminated there and sheds one trailing `'\r'` (the CRLF case); the final
piece is dropped when empty and otherwise kept verbatim. -/
def rustLines (s : Str) : List Str :=
  (s.splitOn '\n').dropLast.map stripCR ++ lastPiece (s.splitOn '\n')

/-- `UnicodeWidthStr::width`, abstracted over the per-character width table. -/
def strWidth (w : Char → Nat) (s : Str) : Nat := (s.map w).sum

/-- `TableError` from src/lib.rs. -/
inductive TableError where
  | MissingSeparator : TableError
  | TableTooLarge : Nat → Nat → Nat → Nat → TableError
  | InvalidStructure : String → TableError
  | EmptyInput : TableError
deriving DecidableEq

def MAX_ROWS : Nat := 100000
def MAX_COLS : Nat := 1000
def MAX_CELLS : Nat := 1000000

/-- One step of `get_column_widths`: merge one row into the accumulated widths
(`column_widths[i] := max` for existing columns, push for new ones). -/
def mergeRowWidths (w : Char → Nat) : List Nat → List Str → List Nat
  | ws, [] => ws
  | [], cell :: rest => strWidth w cell :: mergeRowWidths w [] rest
  | x :: ws, cell :: rest => max x (strWidth w cell) :: mergeRowWidths w ws rest

/-- `get_column_widths`: per column, the maximum display width over all rows. -/
def getColumnWidths (w : Char → Nat) (cells : List (List Str)) : List Nat :=
  cells.foldl (mergeRowWidths w) []

/-- Cell normalization inside `import_table`: trim, and collapse an all-dash
nonempty cell of the separator row (row index 1) to a single dash. -/
def normalizeCell (rowI : Nat) (cell : Str) : Str :=
  let trimmed := trimStr cell
  if rowI = 1 && trimmed.all (· == '-') && !trimmed.isEmpty then ['-'] else trimmed

/-- Split one line on pipes and normalize each cell (`import_table` row body). -/
def parseRow (rowI : Nat) (line : Str) : List Str :=
  (line.splitOn '|').map (normalizeCell rowI)

/-- The `import_table` loop: the row index counts every line (including lines
without a pipe, which are skipped but still advance the enumeration index). -/
def importRows (rowI : Nat) : List Str → List (List Str)
  | [] => []
  | line :: rest =>
    if line.contains '|' then parseRow rowI line :: importRows (rowI + 1) rest
    else importRows (rowI + 1) rest

/-- `remove_empty_edge_columns`: drop a zero-width leading column, then a
zero-width trailing column (the latter only from rows of full length). -/
def removeEmptyEdgeColumns (w : Char → Nat) (cells0 : List (List Str)) :
    List (List Str) :=
  let widths0 := getColumnWidths w cells0
  if widths0.isEmpty then cells0
  else
    let cells1 := if widths0[0]? = some 0 then cells0.map (List.drop 1) else cells0
    let widths1 := if widths0[0]? = some 0 then getColumnWidths w cells1 else widths0
    if widths1.isEmpty then cells1
    else if widths1.getLast? = some 0 then
      cells1.map (fun row => if row.length = widths1.length then row.dropLast else row)
    else cells1

/-- `import_table`: skip leading pipe-free lines, parse the rest, trim edges. -/
def importTable (w : Char → Nat) (table : Str) :
    Except TableError (List (List Str)) :=
  let tableRows := (rustLines table).dropWhile (fun l => !l.contains '|')
  if tableRows.isEmpty then
    .error (.InvalidStructure "No table rows found in input")
  else
    .ok (removeEmptyEdgeColumns w (importRows 0 tableRows))

/-- `is_separator_row`. -/
def isSeparatorRow (cells : List (List Str)) (rowIndex : Nat) : Bool :=
  match cells[rowIndex]? with
  | none => false
  | some row =>
    !row.isEmpty && row.all (fun cell => !cell.isEmpty && cell.all (· == '-'))

/-- `add_missing_cell_columns`: pad every row with empty cells up to `numColumns`. -/
def addMissingCellColumns (numColumns : Nat) (cells : List (List Str)) :
    List (List Str) :=
  cells.map (fun row => row ++ List.replicate (numColumns - row.length) [])

/-- `pad_cells_for_output` for one row: right-pad each cell with spaces (dashes
for the separator row) up to its column width.  The column lookup
`column_widths[col_i]` is unchecked in the source; `none` models the panic. -/
def padRow (w : Char → Nat) (widths : List Nat) (rowI : Nat) :
    Nat → List Str → Option (List Str)
  | _, [] => some []
  | colI, cell :: rest =>
    match widths[colI]?, padRow w widths rowI (colI + 1) rest with
    | some target, some rest' =>
      some ((cell ++ List.replicate (target - strWidth w cell)
              (if rowI = 1 then '-' else ' ')) :: rest')
    | _, _ => none

/-- `pad_cells_for_output` over all rows. -/
def padCellsForOutput (w : Char → Nat) (widths : List Nat) :
    Nat → List (List Str) → Option (List (List Str))
  | _, [] => some []
  | rowI, row :: rest =>
    match padRow w widths rowI 0 row, padCellsForOutput w widths (rowI + 1) rest with
    | some row', some rest' => some (row' :: rest')
    | _, _ => none

/-- Content of a rendered header/data line: `| c0 | c1 | ... |`. -/
def renderRowContent (row : List Str) : Str :=
  '|' :: ' ' :: (List.intercalate [' ', '|', ' '] row ++ [' ', '|'])

/-- Content of the rendered separator line: `|-d0-|-d1-|...-|`. -/
def renderSepContent (row : List Str) : Str :=
  '|' :: '-' :: (List.intercalate ['-', '|', '-'] row ++ ['-', '|'])

/-- `render_output`: header, separator (when present), data rows; every line is
terminated by one newline. -/
def renderOutput (cells : List (List Str)) : Str :=
  match cells with
  | [] => []
  | header :: rest =>
    (renderRowContent header ++ ['\n']) ++
      match rest with
      | [] => []
      | sepRow :: dataRows =>
        (renderSepContent sepRow ++ ['\n']) ++
          (dataRows.map (fun r => renderRowContent r ++ ['\n'])).flatten

/-- `format_table` (the whole pipeline, after the state reset).  The outer
`Option` records panic-freedom: `none` would mean an out-of-bounds index. -/
def formatTable (w : Char → Nat) (table : Str) : Option (Except TableError Str) :=
  if (trimStr table).isEmpty then some (.error .EmptyInput)
  else
    match importTable w table with
    | .error e => some (.error e)
    | .ok cells =>
      if cells.length < 2 then some (.error .MissingSeparator)
      else
        let numRows := cells.length
        let numCols := (getColumnWidths w cells).length
        if numRows > MAX_ROWS ∨ numCols > MAX_COLS ∨ numRows * numCols > MAX_CELLS then
          some (.error (.TableTooLarge numRows numCols MAX_ROWS MAX_COLS))
        else if !isSeparatorRow cells 1 then
          some (.error (.InvalidStructure "Row 2 is not a valid separator row"))
        else
          let widths := getColumnWidths w cells
          match padCellsForOutput w widths 0 (addMissingCellColumns widths.length cells) with
          | none => none
          | some padded => some (.ok (renderOutput padded))

/-- The backtick character (written via its code point). -/
def backquote : Char := Char.ofNat 96

/-- The candidate test of `format_document`: the trimmed line starts with a
pipe, or the line contains a pipe and its trimmed form does not start with a
triple-backtick fence marker. -/
def isCandidate (line : Str) : Bool :=
  (trimStr line).head? = some '|' ||
    (line.contains '|' && !(List.isPrefixOf [backquote, backquote, backquote] (trimStr line)))

/-- `try_format_table_at`, acting on the suffix of lines that starts at the
candidate line: greedily take the maximal run of pipe-containing lines, join
with newlines, and try `format_table`.  The outer `Option` is panic tracking;
the inner `Option` is the `Option` of the Rust function (`none` = not a
table). -/
def tryFormatTableAt (w : Char → Nat) (lines : List Str) :
    Option (Option (Nat × Str)) :=
  let block := lines.takeWhile (fun l => l.contains '|')
  if block.length = 0 then some none
  else
    match formatTable w (List.intercalate ['\n'] block) with
    | none => none
    | some (.ok formatted) => some (some (block.length, formatted))
    | some (.error _) => some none

/-- The scanning loop of `format_document` over the remaining lines.  The fuel
argument only serves structural recursion; `format_document` supplies
`lines.length`, which always suffices because every step consumes at least one
line (a successful `try_format_table_at` consumes `n ≥ 1` lines, so advancing
by `n` from `line :: rest` is `rest.drop (n - 1)`). -/
def formatDocLoopF (w : Char → Nat) : Nat → List Str → Option Str
  | _, [] => some []
  | 0, _ :: _ => none
  | fuel + 1, line :: rest =>
    if isCandidate line then
      match tryFormatTableAt w (line :: rest) with
      | none => none
      | some (some (n, formatted)) =>
        (formatDocLoopF w fuel (rest.drop (n - 1))).map (fun tail => formatted ++ tail)
      | some none =>
        (formatDocLoopF w fuel rest).map (fun tail => line ++ '\n' :: tail)
    else
      (formatDocLoopF w fuel rest).map (fun tail => line ++ '\n' :: tail)

/-- `format_document`: scan all lines, then drop the trailing newline the line
joining introduced when the source document did not end with one. -/
def formatDocument (w : Char → Nat) (document : Str) : Option Str :=
  let lines := rustLines document
  (formatDocLoopF w lines.length lines).map (fun out =>
    if document.getLast? ≠ some '\n' ∧ out.getLast? = some '\n' then out.dropLast
    else out)

/-- The mutable formatter instance (`TableFormatter` struct). -/
structure TableFormatter where
  cells : List (List Str)
  column_widths : List Nat

/-- `TableFormatter::new`. -/
def TableFormatter.new : TableFormatter := { cells := [], column_widths := [] }

/-- The stateful `format_table` method: it first clears `cells` and
`column_widths` (the reset at the top of the Rust method), then runs the
pipeline, leaving in the instance whatever the field mutations produced at the
point of return. -/
def formatTableSt (w : Char → Nat) (self : TableFormatter) (table : Str) :
    TableFormatter × Option (Except TableError Str) :=
  let self1 : TableFormatter := { self with cells := [], column_widths := [] }
  if (trimStr table).isEmpty then (self1, some (.error .EmptyInput))
  else
    match importTable w table with
    | .error e => (self1, some (.error e))
    | .ok cells =>
      let widths := getColumnWidths w cells
      let st : TableFormatter := { self1 with cells := cells, column_widths := widths }
      if cells.length < 2 then (st, some (.error .MissingSeparator))
      else if cells.length > MAX_ROWS ∨ widths.length > MAX_COLS ∨
          cells.length * widths.length > MAX_CELLS then
        (st, some (.error (.TableTooLarge cells.length widths.length MAX_ROWS MAX_COLS)))
      else if !isSeparatorRow cells 1 then
        (st, some (.error (.InvalidStructure "Row 2 is not a valid separator row")))
      else
        match padCellsForOutput w widths 0 (addMissingCellColumns widths.length cells) with
        | none => (st, none)
        | some padded =>
          ({ st with cells := padded }, some (.ok (renderOutput padded)))

/-- Decidable equality of results, used to evaluate the model on concrete
inputs. -/
instance {ε α : Type} [DecidableEq ε] [DecidableEq α] : DecidableEq (Except ε α) :=
  fun x y =>
  match x, y with
  | .ok a, .ok b => if h : a = b then .isTrue (by rw [h]) else .isFalse (by simp [h])
  | .error a, .error b => if h : a = b then .isTrue (by rw [h]) else .isFalse (by simp [h])
  | .ok _, .error _ => .isFalse (by simp)
  | .error _, .ok _ => .isFalse (by simp)

/-- A concrete width table (every character one column wide), used to run the
model on concrete ASCII inputs; on such inputs it agrees with `unicode_width`. -/
def w1 : Char → Nat := fun _ => 1

/-- Width of the cell of `row` in column `j` (0 when the row is too short). -/
def cellWidthAt (w : Char → Nat) (j : Nat) (row : List Str) : Nat :=
  (row[j]?).elim 0 (strWidth w)

/-- Maximum width over all cells of column `j`. -/
def colMax (w : Char → Nat) (cells : List (List Str)) (j : Nat) : Nat :=
  cells.foldr (fun row m => max (cellWidthAt w j row) m) 0

/-- Maximum row length of a cell matrix. -/
def maxRowLength (cells : List (List Str)) : Nat :=
  cells.foldr (fun r m => max r.length m) 0

/-- Functional form of one padded cell. -/
def padCellFun (w : Char → Nat) (rowI target : Nat) (cell : Str) : Str :=
  cell ++ List.replicate (target - strWidth w cell) (if rowI = 1 then '-' else ' ')

/-- Functional form of `pad_cells_for_output` (defined when no index is out of
bounds). -/
def padCellsFun (w : Char → Nat) (widths : List Nat) :
    Nat → List (List Str) → List (List Str)
  | _, [] => []
  | rowI, row :: rest =>
    List.zipWith (padCellFun w rowI) widths row :: padCellsFun w widths (rowI + 1) rest

/-! ## Characterization of `get_column_widths` -/

/-- Cells produced by `import_table` are trimmed and contain no pipe and no
newline. -/
def CleanCell (c : Str) : Prop :=
  trimStr c = c ∧ '|' ∉ c ∧ '\n' ∉ c

theorem mergeRowWidths_length (w : Char → Nat) (ws : List Nat) (row : List Str) :
    (mergeRowWidths w ws row).length = max ws.length row.length := by
  induction row generalizing ws with
  | nil => cases ws <;> simp [mergeRowWidths]
  | cons c rest ih =>
    cases ws with
    | nil => simp [mergeRowWidths, ih]
    | cons x ws => simp [mergeRowWidths, ih]; omega

theorem mergeRowWidths_getD (w : Char → Nat) (ws : List Nat) (row : List Str)
    (j : Nat) :
    (mergeRowWidths w ws row).getD j 0 = max (ws.getD j 0) (cellWidthAt w j row) := by
  induction row generalizing ws j with
  | nil => cases ws <;> simp [mergeRowWidths, cellWidthAt]
  | cons c rest ih =>
    cases ws with
    | nil =>
      cases j with
      | zero => simp [mergeRowWidths, cellWidthAt]
      | succ j => simpa [mergeRowWidths, cellWidthAt] using ih [] j
    | cons x ws =>
      cases j with
      | zero => simp [mergeRowWidths, cellWidthAt]
      | succ j => simpa [mergeRowWidths, cellWidthAt] using ih ws j

theorem foldl_mergeRowWidths_length (w : Char → Nat) (cells : List (List Str))
    (acc : List Nat) :
    (cells.foldl (mergeRowWidths w) acc).length = max acc.length (maxRowLength cells) := by
  induction cells generalizing acc with
  | nil => simp [maxRowLength]
  | cons row rest ih =>
    simp only [List.foldl_cons, maxRowLength, List.foldr_cons]
    rw [ih, mergeRowWidths_length]
    show _ = max acc.length (max row.length (maxRowLength rest))
    omega

theorem getColumnWidths_length (w : Char → Nat) (cells : List (List Str)) :
    (getColumnWidths w cells).length = maxRowLength cells := by
  simpa using foldl_mergeRowWidths_length w cells []

theorem foldl_mergeRowWidths_getD (w : Char → Nat) (cells : List (List Str))
    (acc : List Nat) (j : Nat) :
    (cells.foldl (mergeRowWidths w) acc).getD j 0 =
      max (acc.getD j 0) (colMax w cells j) := by
  induction cells generalizing acc with
  | nil => simp [colMax]
  | cons row rest ih =>
    simp only [List.foldl_cons, colMax, List.foldr_cons]
    rw [ih, mergeRowWidths_getD]
    show _ = max (acc.getD j 0) (max (cellWidthAt w j row) (colMax w rest j))
    omega

theorem getColumnWidths_getD (w : Char → Nat) (cells : List (List Str)) (j : Nat) :
    (getColumnWidths w cells).getD j 0 = colMax w cells j := by
  simpa using foldl_mergeRowWidths_getD w cells [] j

theorem length_le_maxRowLength (cells : List (List Str)) (row : List Str)
    (h : row ∈ cells) : row.length ≤ maxRowLength cells := by
  induction cells with
  | nil => cases h
  | cons r rest ih =>
    rcases List.mem_cons.mp h with rfl | h
    · simp [maxRowLength]
    · have := ih h
      simp only [maxRowLength, List.foldr_cons] at *
      omega

theorem cellWidthAt_le_colMax (w : Char → Nat) (cells : List (List Str))
    (row : List Str) (j : Nat) (h : row ∈ cells) :
    cellWidthAt w j row ≤ colMax w cells j := by
  induction cells with
  | nil => cases h
  | cons r rest ih =>
    rcases List.mem_cons.mp h with rfl | h
    · simp [colMax]
    · have := ih h
      simp only [colMax, List.foldr_cons] at *
      omega

theorem row_length_le_getColumnWidths (w : Char → Nat) (cells : List (List Str))
    (row : List Str) (h : row ∈ cells) :
    row.length ≤ (getColumnWidths w cells).length := by
  rw [getColumnWidths_length]
  exact length_le_maxRowLength cells row h

/-! ## `add_missing_cell_columns` preserves the column widths -/

theorem cellWidthAt_append_replicate_nil (w : Char → Nat) (j k : Nat)
    (row : List Str) :
    cellWidthAt w j (row ++ List.replicate k []) = cellWidthAt w j row := by
  unfold cellWidthAt
  rcases lt_or_ge j row.length with h | h
  · rw [List.getElem?_append_left h]
  · rw [List.getElem?_append_right h, List.getElem?_eq_none h]
    rcases lt_or_ge (j - row.length) k with h2 | h2
    · simp [List.getElem?_replicate, h2, strWidth]
    · simp [List.getElem?_replicate, Nat.not_lt.mpr h2]

theorem colMax_addMissing (w : Char → Nat) (n : Nat) (cells : List (List Str))
    (j : Nat) :
    colMax w (addMissingCellColumns n cells) j = colMax w cells j := by
  induction cells with
  | nil => rfl
  | cons row rest ih =>
    simp only [addMissingCellColumns, List.map_cons, colMax, List.foldr_cons] at *
    rw [cellWidthAt_append_replicate_nil, ih]

theorem maxRowLength_addMissing (n : Nat) (cells : List (List Str))
    (hne : cells ≠ [])
    (hle : ∀ row ∈ cells, row.length ≤ n) :
    maxRowLength (addMissingCellColumns n cells) = n := by
  have hrow : ∀ row ∈ cells, (row ++ List.replicate (n - row.length) []).length = n := by
    intro row hr
    have := hle row hr
    simp [List.length_append]
    omega
  clear hle
  induction cells with
  | nil => cases hne rfl
  | cons row rest ih =>
    simp only [addMissingCellColumns, List.map_cons, maxRowLength, List.foldr_cons]
    rw [hrow row (by simp)]
    cases rest with
    | nil => simp [maxRowLength]
    | cons r2 rest2 =>
      have := ih (by simp) (fun r hr => hrow r (List.mem_cons_of_mem _ hr))
      simp only [addMissingCellColumns, maxRowLength] at this
      rw [this]
      omega

theorem getColumnWidths_addMissing (w : Char → Nat) (cells : List (List Str))
    (hne : cells ≠ []) :
    getColumnWidths w
        (addMissingCellColumns (getColumnWidths w cells).length cells) =
      getColumnWidths w cells := by
  have hle := fun row h => row_length_le_getColumnWidths w cells row h
  have hlen : (getColumnWidths w
      (addMissingCellColumns (getColumnWidths w cells).length cells)).length =
      (getColumnWidths w cells).length := by
    rw [getColumnWidths_length,
      maxRowLength_addMissing (getColumnWidths w cells).length cells hne hle]
  apply List.ext_getElem hlen
  intro i h1 h2
  have e1 : ∀ (l : List Nat) (i : Nat) (h : i < l.length), l[i] = l.getD i 0 := by
    intro l i h
    simp [List.getD_eq_getElem?_getD, List.getElem?_eq_getElem h]
  rw [e1 _ _ h1, e1 _ _ h2, getColumnWidths_getD, getColumnWidths_getD,
    colMax_addMissing]

/-! ## Padding: totality and functional characterization -/

theorem padRow_eq_some (w : Char → Nat) (widths : List Nat) (rowI : Nat)
    (row : List Str) : ∀ colI : Nat, colI + row.length ≤ widths.length →
    padRow w widths rowI colI row =
      some (List.zipWith (padCellFun w rowI) (widths.drop colI) row) := by
  induction row with
  | nil => simp [padRow]
  | cons c rest ih =>
    intro colI h
    have hc : colI < widths.length := by simp at h; omega
    rw [padRow, List.getElem?_eq_getElem hc,
      ih (colI + 1) (by simp at h ⊢; omega),
      List.drop_eq_getElem_cons hc]
    rfl

theorem padCells_eq_some (w : Char → Nat) (widths : List Nat)
    (cells : List (List Str)) (hle : ∀ row ∈ cells, row.length ≤ widths.length) :
    ∀ k : Nat, padCellsForOutput w widths k cells =
      some (padCellsFun w widths k cells) := by
  induction cells with
  | nil => simp [padCellsForOutput, padCellsFun]
  | cons row rest ih =>
    intro k
    rw [padCellsForOutput, padRow_eq_some w widths k row 0
      (by simpa using hle row (by simp)),
      ih (fun r hr => hle r (List.mem_cons_of_mem _ hr)) (k + 1)]
    simp [padCellsFun]

theorem addMissing_row_length (n : Nat) (cells : List (List Str))
    (hle : ∀ r ∈ cells, r.length ≤ n) :
    ∀ row ∈ addMissingCellColumns n cells, row.length = n := by
  intro row hrow
  rcases List.mem_map.mp hrow with ⟨r, hr, rfl⟩
  have := hle r hr
  simp [List.length_append]
  omega

/-! ## C10: totality (panic freedom) -/

theorem formatTable_isSome (w : Char → Nat) (t : Str) :
    (formatTable w t).isSome := by
  simp only [formatTable]
  split
  · simp
  · split
    · simp
    · rename_i cells heq
      split
      · simp
      · split
        · simp
        · split
          · simp
          · rw [padCells_eq_some w (getColumnWidths w cells)
              (addMissingCellColumns (getColumnWidths w cells).length cells)
              (fun row hrow => by
                rw [addMissing_row_length (getColumnWidths w cells).length cells
                  (fun r hr => row_length_le_getColumnWidths w cells r hr) row hrow])
              0]
            simp

theorem tryFormatTableAt_isSome (w : Char → Nat) (lines : List Str) :
    (tryFormatTableAt w lines).isSome := by
  simp only [tryFormatTableAt]
  split
  · simp
  · rcases Option.isSome_iff_exists.mp
      (formatTable_isSome w
        (List.intercalate ['\n'] (lines.takeWhile fun l => l.contains '|'))) with
      ⟨r, hr⟩
    rw [hr]
    cases r <;> simp

theorem formatDocLoopF_isSome (w : Char → Nat) :
    ∀ (fuel : Nat) (lines : List Str), lines.length ≤ fuel →
    (formatDocLoopF w fuel lines).isSome := by
  intro fuel
  induction fuel with
  | zero =>
    intro lines h
    cases lines with
    | nil => simp [formatDocLoopF]
    | cons a l => simp at h
  | succ fuel ih =>
    intro lines h
    cases lines with
    | nil => simp [formatDocLoopF]
    | cons line rest =>
      rw [formatDocLoopF]
      split
      · rcases Option.isSome_iff_exists.mp
          (tryFormatTableAt_isSome w (line :: rest)) with ⟨r, hr⟩
        rw [hr]
        match r with
        | some (n, f) =>
          have : (rest.drop (n - 1)).length ≤ fuel := by
            simp at h ⊢
            omega
          simpa using ih (rest.drop (n - 1)) this
        | none =>
          have : rest.length ≤ fuel := by simp at h; omega
          simpa using ih rest this
      · have : rest.length ≤ fuel := by simp at h; omega
        simpa using ih rest this

theorem formatDocument_isSome (w : Char → Nat) (d : Str) :
    (formatDocument w d).isSome := by
  simp only [formatDocument]
  simpa using formatDocLoopF_isSome w (rustLines d).length (rustLines d) le_rfl

/-- C10: the pipeline is total.  `format_table` never panics: in particular,
after `add_missing_cell_columns` every row's length is bounded by the length
of `column_widths`, so every index taken by `pad_cells_for_output` is in
bounds, and every call returns `Ok` or one of the four errors; and
`format_document` always returns a string. -/
theorem formatTable_formatDocument_total (w : Char → Nat) :
    (∀ t : Str, (formatTable w t).isSome) ∧
    (∀ d : Str, (formatDocument w d).isSome) ∧
    (∀ (t : Str) (cells : List (List Str)), importTable w t = .ok cells →
      ∀ row ∈ addMissingCellColumns (getColumnWidths w cells).length cells,
        row.length ≤ (getColumnWidths w cells).length) :=
  ⟨formatTable_isSome w, formatDocument_isSome w,
    fun _ cells _ row hrow => le_of_eq
      (addMissing_row_length _ cells
        (fun r hr => row_length_le_getColumnWidths w cells r hr) row hrow)⟩

/-! ## Inversion of a successful `format_table` call -/

theorem formatTable_ok_inversion (w : Char → Nat) (t out : Str)
    (h : formatTable w t = some (.ok out)) :
    (trimStr t).isEmpty = false ∧
    ∃ cells : List (List Str), importTable w t = .ok cells ∧
      2 ≤ cells.length ∧
      cells.length ≤ MAX_ROWS ∧ (getColumnWidths w cells).length ≤ MAX_COLS ∧
      cells.length * (getColumnWidths w cells).length ≤ MAX_CELLS ∧
      isSeparatorRow cells 1 = true ∧
      out = renderOutput (padCellsFun w (getColumnWidths w cells) 0
        (addMissingCellColumns (getColumnWidths w cells).length cells)) := by
  simp only [formatTable] at h
  split at h
  · simp at h
  · rename_i htrim
    split at h
    · simp at h
    · rename_i cells heq
      split at h
      · simp at h
      · rename_i hlen
        split at h
        · simp at h
        · rename_i hbig
          split at h
          · simp at h
          · rename_i hsep
            rw [padCells_eq_some w (getColumnWidths w cells)
              (addMissingCellColumns (getColumnWidths w cells).length cells)
              (fun row hrow => by
                rw [addMissing_row_length (getColumnWidths w cells).length cells
                  (fun r hr => row_length_le_getColumnWidths w cells r hr) row hrow])
              0] at h
            refine ⟨by simpa using htrim, cells, heq, by omega, by omega,
              by omega, by omega, by simpa using hsep, by simpa using h.symm⟩

/-- Entry `i` of the padded matrix. -/
theorem padCellsFun_getElem (w : Char → Nat) (widths : List Nat) :
    ∀ (k i : Nat) (cells : List (List Str)),
    (padCellsFun w widths k cells)[i]? =
      (cells[i]?).map fun row => List.zipWith (padCellFun w (k + i)) widths row := by
  intro k i cells
  induction cells generalizing k i with
  | nil => simp [padCellsFun]
  | cons row rest ih =>
    cases i with
    | zero => simp [padCellsFun]
    | succ i =>
      simp only [padCellsFun, List.getElem?_cons_succ, ih (k + 1) i]
      have : k + 1 + i = k + (i + 1) := by omega
      rw [this]

/-- C1: on every success, each cell of the rendered matrix is its original
cell with spaces (dashes for row 1) appended so that its display width equals
its column's computed maximum width. -/
theorem formatTable_width_invariant (w : Char → Nat) (t out : Str)
    (cells : List (List Str))
    (hsp : w ' ' = 1) (hda : w '-' = 1)
    (himp : importTable w t = .ok cells)
    (hok : formatTable w t = some (.ok out)) :
    out = renderOutput (padCellsFun w (getColumnWidths w cells) 0
      (addMissingCellColumns (getColumnWidths w cells).length cells)) ∧
    ∀ (i : Nat) (row : List Str),
      (padCellsFun w (getColumnWidths w cells) 0
        (addMissingCellColumns (getColumnWidths w cells).length cells))[i]? =
          some row →
      ∀ (j : Nat) (cell : Str), row[j]? = some cell →
      ∃ orig : Str,
        ((addMissingCellColumns (getColumnWidths w cells).length cells)[i]?.bind
          fun r => r[j]?) = some orig ∧
        cell = orig ++ List.replicate
          ((getColumnWidths w cells).getD j 0 - strWidth w orig)
          (if i = 1 then '-' else ' ') ∧
        strWidth w cell = (getColumnWidths w cells).getD j 0 := by
  obtain ⟨-, cells', himp', -, -, -, -, -, hout⟩ := formatTable_ok_inversion w t out hok
  rw [himp] at himp'
  injection himp' with hcc
  subst hcc
  refine ⟨hout, ?_⟩
  intro i row hrow j cell hcell
  rw [padCellsFun_getElem] at hrow
  rcases Option.map_eq_some'.mp hrow with ⟨row2, hrow2, rfl⟩
  rw [List.getElem?_zipWith'] at hcell
  rcases Option.bind_eq_some.mp hcell with ⟨g, hg, hcellg⟩
  rcases Option.map_eq_some'.mp hg with ⟨target, htarget, rfl⟩
  rcases Option.map_eq_some'.mp hcellg with ⟨orig, horig, rfl⟩
  have hrow2mem : row2 ∈ addMissingCellColumns (getColumnWidths w cells).length cells :=
    List.getElem?_mem hrow2
  have htargetD : (getColumnWidths w cells).getD j 0 = target := by
    simp [List.getD_eq_getElem?_getD, htarget]
  have hwle : strWidth w orig ≤ target := by
    have h1 : cellWidthAt w j row2 ≤
        colMax w (addMissingCellColumns (getColumnWidths w cells).length cells) j :=
      cellWidthAt_le_colMax w _ row2 j hrow2mem
    rw [colMax_addMissing, ← getColumnWidths_getD, htargetD] at h1
    simpa [cellWidthAt, horig] using h1
  refine ⟨orig, by simp [hrow2, horig], by simp [padCellFun, htargetD, htarget], ?_⟩
  have hchw : w (if 0 + i = 1 then '-' else ' ') = 1 := by
    split <;> simp [hsp, hda]
  simp only [padCellFun, strWidth, List.map_append, List.sum_append,
    List.map_replicate, List.sum_replicate, smul_eq_mul, htargetD, hchw, mul_one]
  have : strWidth w orig = (orig.map w).sum := rfl
  omega

/-- C1 witness: on a concrete table the theorem applies; the padded cell
`data1` in column 0 keeps width 5 = the column maximum. -/
theorem formatTable_width_invariant_witness :
    ∃ orig : Str,
      ((addMissingCellColumns
          (getColumnWidths w1 [[str "h1", str "h2"], [str "-", str "-"],
            [str "data1", str "d2"]]).length
          [[str "h1", str "h2"], [str "-", str "-"], [str "data1", str "d2"]])[2]?.bind
        fun r => r[0]?) = some orig ∧
      str "data1" = orig ++ List.replicate
        ((getColumnWidths w1 [[str "h1", str "h2"], [str "-", str "-"],
          [str "data1", str "d2"]]).getD 0 0 - strWidth w1 orig)
        (if 2 = 1 then '-' else ' ') ∧
      strWidth w1 (str "data1") =
        (getColumnWidths w1 [[str "h1", str "h2"], [str "-", str "-"],
          [str "data1", str "d2"]]).getD 0 0 := by
  have h := (formatTable_width_invariant w1
    (str "| h1 | h2 |\n|-|-|\n| data1 | d2 |")
    (str "| h1    | h2 |\n|-------|----|\n| data1 | d2 |\n")
    [[str "h1", str "h2"], [str "-", str "-"], [str "data1", str "d2"]]
    (by decide) (by decide) (by decide) (by decide)).2
  exact h 2 (List.zipWith (padCellFun w1 2)
      (getColumnWidths w1 [[str "h1", str "h2"], [str "-", str "-"],
        [str "data1", str "d2"]]) [str "data1", str "d2"])
    (by decide) 0 (str "data1") (by decide)

/-- C9: the result of `format_table` depends only on the text argument (and
width table): the reset at the top of the method makes the outcome independent
of the prior instance state, including states produced by earlier (possibly
failed) calls. -/
theorem formatTableSt_state_independent (w : Char → Nat) (s₁ s₂ : TableFormatter)
    (t : Str) :
    (formatTableSt w s₁ t).2 = (formatTableSt w s₂ t).2 ∧
    ∀ t₂ : Str, (formatTableSt w (formatTableSt w s₁ t).1 t₂).2 =
      (formatTableSt w s₂ t₂).2 :=
  ⟨rfl, fun _ => rfl⟩

/-- The only error `import_table` itself can produce. -/
theorem importTable_error (w : Char → Nat) (t : Str) (e : TableError)
    (h : importTable w t = .error e) :
    e = .InvalidStructure "No table rows found in input" := by
  simp only [importTable] at h
  split at h <;> simp_all

/-- When no line contains a pipe, `import_table` reports `InvalidStructure`. -/
theorem importTable_no_pipe (w : Char → Nat) (t : Str)
    (hall : ∀ l ∈ rustLines t, l.contains '|' = false) :
    importTable w t = .error (.InvalidStructure "No table rows found in input") := by
  have hnil : ((rustLines t).dropWhile fun l => !l.contains '|') = [] := by
    rw [List.dropWhile_eq_nil_iff]
    intro x hx
    simpa using hall x hx
  simp only [importTable, hnil]
  simp

/-- C4 (amended): `format_table` fails with `EmptyInput` exactly when the
trimmed input is empty; an input that is nonempty after trimming but none of
whose lines contains a pipe fails with `InvalidStructure`, not `EmptyInput`. -/
theorem formatTable_emptyInput_iff (w : Char → Nat) (t : Str) :
    (formatTable w t = some (.error .EmptyInput) ↔ (trimStr t).isEmpty = true) ∧
    ((trimStr t).isEmpty = false →
      ((rustLines t).all fun l => !l.contains '|') = true →
      formatTable w t =
        some (.error (.InvalidStructure "No table rows found in input"))) := by
  constructor
  · by_cases h : (trimStr t).isEmpty
    · simp [formatTable, h]
    · simp only [h, iff_false]
      simp only [formatTable, h, Bool.false_eq_true, if_false]
      cases himp : importTable w t with
      | error e =>
        have he := importTable_error w t e himp
        subst he
        simp
      | ok cells =>
        split
        · simp_all
        · split
          · simp
          · split
            · simp
            · split
              · simp
              · split <;> simp
  · intro h hall
    have hno : importTable w t =
        .error (.InvalidStructure "No table rows found in input") :=
      importTable_no_pipe w t (fun l hl => by
        have := List.all_eq_true.mp hall l hl
        simpa using this)
    simp only [formatTable, h, Bool.false_eq_true, if_false, hno]

/-- C4, counterexample to the claim as stated: the input `hello` is nonempty
and has no pipe in any line, yet `format_table` fails with
`InvalidStructure`, not `EmptyInput`. -/
theorem formatTable_emptyInput_counterexample :
    (trimStr (str "hello")).isEmpty = false ∧
    ((rustLines (str "hello")).all fun l => !l.contains '|') = true ∧
    formatTable w1 (str "hello") =
      some (.error (.InvalidStructure "No table rows found in input")) ∧
    formatTable w1 (str "hello") ≠ some (.error .EmptyInput) := by decide

/-- C5: once the input has parsed to at least two rows, the `TableTooLarge`
error occurs iff the row count, the column count, or their product exceeds its
maximum, and carries the actual counts together with both maxima. -/
theorem formatTable_tableTooLarge_iff (w : Char → Nat) (t : Str)
    (cells : List (List Str))
    (htrim : (trimStr t).isEmpty = false)
    (himp : importTable w t = .ok cells)
    (hrows : 2 ≤ cells.length) :
    formatTable w t =
        some (.error (.TableTooLarge cells.length (getColumnWidths w cells).length
          MAX_ROWS MAX_COLS)) ↔
      (MAX_ROWS < cells.length ∨ MAX_COLS < (getColumnWidths w cells).length ∨
        MAX_CELLS < cells.length * (getColumnWidths w cells).length) := by
  unfold formatTable
  rw [himp]
  simp only [htrim, Bool.false_eq_true, if_false]
  rw [if_neg (by omega)]
  split
  · simp_all
  · constructor
    · intro hcontra
      split at hcontra <;> simp_all
      split at hcontra <;> simp_all
    · intro hcond
      exact absurd hcond (by assumption)

/-- C5 witness: a small two-row table is not too large; the theorem applies
and both sides of the equivalence are false. -/
theorem formatTable_tableTooLarge_iff_witness :
    formatTable w1 (str "|a|\n|-|") =
        some (.error (.TableTooLarge 2 1 MAX_ROWS MAX_COLS)) ↔
      (MAX_ROWS < 2 ∨ MAX_COLS < 1 ∨ MAX_CELLS < 2 * 1) :=
  formatTable_tableTooLarge_iff w1 (str "|a|\n|-|") [[['a']], [['-']]]
    (by decide) (by decide) (by decide)

/-- C6: the code does not track fence state, so a fenced code block containing
a well-formed table is reformatted: on this document the fenced lines `|a|b|`
and `|-|-|` are replaced by their aligned versions, contradicting both the
spec and the doc comment of `format_document` (which promises to preserve
code blocks). -/
theorem formatDocument_reformats_fenced_table :
    formatDocument w1 (str "```\n|a|b|\n|-|-|\n```") =
      some (str "```\n| a | b |\n|---|---|\n```") ∧
    ¬ (str "|a|b|") ∈ rustLines (str "```\n| a | b |\n|---|---|\n```") ∧
    str "```\n| a | b |\n|---|---|\n```" ≠ str "```\n|a|b|\n|-|-|\n```" := by decide

/-- C3, counterexample: a blank interior line shifts the enumeration index in
`import_table`, so the separator line is parsed at row index 2 and escapes
dash normalization; its dash run inflates the column width.  Feeding the
output back yields a narrower, different table. -/
theorem formatTable_not_idempotent :
    formatTable w1 (str "|a|\n\n|-----|") = some (.ok (str "| a     |\n|-------|\n")) ∧
    formatTable w1 (str "| a     |\n|-------|\n") = some (.ok (str "| a |\n|---|\n")) ∧
    str "| a |\n|---|\n" ≠ str "| a     |\n|-------|\n" := by decide

/-- C7, counterexample: a pipe-free document with a CRLF line ending is not
reproduced exactly: `str::lines` consumes the `"\r\n"` terminator and the
rejoin emits a bare `'\n'`. -/
theorem formatDocument_passthrough_counterexample :
    ¬ '|' ∈ str "a\r\nb" ∧
    formatDocument w1 (str "a\r\nb") = some (str "a\nb") ∧
    str "a\nb" ≠ str "a\r\nb" := by decide

/-! ## Trimming lemmas -/

theorem mem_dropWhile_self {p : Char → Bool} {l : Str} {x : Char}
    (h : x ∈ l.dropWhile p) : x ∈ l :=
  (List.dropWhile_sublist p).mem h

theorem mem_trimStr {s : Str} {x : Char} (h : x ∈ trimStr s) : x ∈ s := by
  unfold trimStr at h
  rw [List.mem_reverse] at h
  have h2 := mem_dropWhile_self h
  rw [List.mem_reverse] at h2
  exact mem_dropWhile_self h2

theorem trimStr_cons_ws {a : Char} {s : Str} (h : isWhitespaceChar a = true) :
    trimStr (a :: s) = trimStr s := by
  unfold trimStr
  rw [List.dropWhile_cons_of_pos h]

theorem dropWhile_append_of_all {p : Char → Bool} {a b : Str}
    (h : ∀ x ∈ a, p x = true) : List.dropWhile p (a ++ b) = List.dropWhile p b := by
  induction a with
  | nil => rfl
  | cons x xs ih =>
    rw [List.cons_append, List.dropWhile_cons_of_pos (h x (by simp))]
    exact ih (fun y hy => h y (by simp [hy]))

theorem dropWhile_all_ws {p : Char → Bool} {a : Str} (h : ∀ x ∈ a, p x = true) :
    List.dropWhile p a = [] := by
  have := dropWhile_append_of_all (b := []) h
  simpa using this

theorem trimStr_append_ws {y z : Str} (h : ∀ x ∈ z, isWhitespaceChar x = true) :
    trimStr (y ++ z) = trimStr y := by
  unfold trimStr
  rw [List.dropWhile_append]
  split
  · rename_i hy
    rw [List.isEmpty_iff] at hy
    rw [hy, dropWhile_all_ws h]
  · rw [List.reverse_append, dropWhile_append_of_all (fun x hx => h x (by simpa using hx))]

theorem head?_dropWhile_not {p : Char → Bool} {l : Str} {a : Char}
    (h : (l.dropWhile p).head? = some a) : p a = false := by
  induction l with
  | nil => simp [List.dropWhile] at h
  | cons x xs ih =>
    rw [List.dropWhile_cons] at h
    split at h
    · exact ih h
    · rename_i hx
      simp at h
      subst h
      simpa using hx

theorem getLast?_of_suffix {l₁ l₂ : Str} (h : l₁ <:+ l₂) (hne : l₁ ≠ []) :
    l₂.getLast? = l₁.getLast? := by
  rcases h with ⟨t, rfl⟩
  rw [List.getLast?_append]
  cases hl : l₁.getLast? with
  | none =>
    rw [List.getLast?_eq_none_iff] at hl
    exact absurd hl hne
  | some x => rfl

theorem dropWhile_eq_self_of_head? {p : Char → Bool} {l : Str} {b : Char}
    (hb : l.head? = some b) (hpb : p b = false) : l.dropWhile p = l := by
  cases l with
  | nil => rfl
  | cons c cs =>
    simp at hb
    subst hb
    rw [List.dropWhile_cons_of_neg (by simp [hpb])]

theorem trimStr_eq_self {s : Str}
    (h1 : ∀ a, s.head? = some a → isWhitespaceChar a = false)
    (h2 : ∀ a, s.getLast? = some a → isWhitespaceChar a = false) :
    trimStr s = s := by
  cases s with
  | nil => rfl
  | cons x xs =>
    unfold trimStr
    rw [dropWhile_eq_self_of_head? (l := x :: xs) rfl (h1 x rfl)]
    cases hl : (x :: xs).getLast? with
    | none => simp at hl
    | some b =>
      rw [dropWhile_eq_self_of_head?
        (by rw [List.head?_reverse]; exact hl) (h2 b hl), List.reverse_reverse]

theorem getLast?_trimStr_not_ws {s : Str} {a : Char}
    (h : (trimStr s).getLast? = some a) : isWhitespaceChar a = false := by
  unfold trimStr at h
  rw [List.getLast?_reverse] at h
  exact head?_dropWhile_not h

theorem head?_trimStr_not_ws {s : Str} {a : Char}
    (h : (trimStr s).head? = some a) : isWhitespaceChar a = false := by
  unfold trimStr at h
  rw [List.head?_reverse] at h
  have hne : List.dropWhile isWhitespaceChar
      ((s.dropWhile isWhitespaceChar).reverse) ≠ [] := by
    intro hc
    rw [hc] at h
    simp at h
  have hsuffix := List.dropWhile_suffix (l := (s.dropWhile isWhitespaceChar).reverse)
    isWhitespaceChar
  rw [← getLast?_of_suffix hsuffix hne, List.getLast?_reverse] at h
  exact head?_dropWhile_not h

theorem trimStr_idem (s : Str) : trimStr (trimStr s) = trimStr s :=
  trimStr_eq_self (fun _ ha => head?_trimStr_not_ws ha)
    (fun _ ha => getLast?_trimStr_not_ws ha)

theorem trimStr_all_dash {s : Str} (h : ∀ x ∈ s, x = '-') : trimStr s = s := by
  apply trimStr_eq_self
  · intro a ha
    have := h a (by cases s with | nil => simp at ha | cons x xs => simp at ha; simp [ha])
    subst this
    decide
  · intro a ha
    have : a ∈ s := by
      cases hs : s.getLast? with
      | none => rw [hs] at ha; cases ha
      | some b =>
        rw [hs] at ha
        cases ha
        exact List.mem_of_mem_getLast? hs
    have := h a this
    subst this
    decide

theorem mem_trimStr_of_not_ws {s : Str} {x : Char} (hx : x ∈ s)
    (hw : isWhitespaceChar x = false) : x ∈ trimStr s := by
  have key : ∀ (l : Str), x ∈ l → x ∈ l.dropWhile isWhitespaceChar := by
    intro l hl
    induction l with
    | nil => cases hl
    | cons a as ih =>
      rw [List.dropWhile_cons]
      split
      · rename_i ha
        rcases List.mem_cons.mp hl with rfl | hl2
        · rw [ha] at hw; cases hw
        · exact ih hl2
      · exact hl
  unfold trimStr
  rw [List.mem_reverse]
  apply key
  rw [List.mem_reverse]
  exact key s hx

theorem trimStr_ne_nil_of_mem {s : Str} {x : Char} (hx : x ∈ s)
    (hw : isWhitespaceChar x = false) : trimStr s ≠ [] := by
  intro hc
  have := mem_trimStr_of_not_ws hx hw
  rw [hc] at this
  cases this

/-! ## Provenance: cells of `import_table` are clean -/

theorem splitOnP_pieces {p : Char → Bool} :
    ∀ (l : Str), ∀ piece ∈ l.splitOnP p, ∀ x ∈ piece, x ∈ l ∧ p x = false := by
  intro l
  induction l with
  | nil =>
    intro piece hp x hx
    rw [List.splitOnP_nil] at hp
    simp at hp
    subst hp
    cases hx
  | cons a as ih =>
    intro piece hp x hx
    rw [List.splitOnP_cons] at hp
    split at hp
    · rcases List.mem_cons.mp hp with rfl | hp2
      · cases hx
      · have := ih piece hp2 x hx
        exact ⟨List.mem_cons_of_mem _ this.1, this.2⟩
    · rename_i ha
      cases hsp : as.splitOnP p with
      | nil => exact absurd hsp (List.splitOnP_ne_nil p as)
      | cons h₀ t =>
        rw [hsp, List.modifyHead_cons] at hp
        rcases List.mem_cons.mp hp with rfl | hp2
        · rcases List.mem_cons.mp hx with rfl | hx2
          · exact ⟨by simp, by simpa using ha⟩
          · have := ih h₀ (by rw [hsp]; simp) x hx2
            exact ⟨List.mem_cons_of_mem _ this.1, this.2⟩
        · have := ih piece (by rw [hsp]; exact List.mem_cons_of_mem _ hp2) x hx
          exact ⟨List.mem_cons_of_mem _ this.1, this.2⟩

theorem splitOn_pieces {sep : Char} {l piece : Str} (hp : piece ∈ l.splitOn sep) :
    ∀ x ∈ piece, x ∈ l ∧ x ≠ sep := by
  intro x hx
  simp only [List.splitOn] at hp
  have h := splitOnP_pieces l piece hp x hx
  refine ⟨h.1, ?_⟩
  have h2 := h.2
  simpa using h2

theorem stripCR_subset {l : Str} : ∀ x ∈ stripCR l, x ∈ l := by
  intro x hx
  unfold stripCR at hx
  split at hx
  · exact List.dropLast_subset _ hx
  · exact hx

theorem lastPiece_of_last_nil {parts : List Str} (h : parts.getLast? = some []) :
    lastPiece parts = [] := by
  unfold lastPiece
  rw [h]

theorem lastPiece_of_last_ne {parts : List Str} {p : Str}
    (h : parts.getLast? = some p) (hne : p ≠ []) : lastPiece parts = [p] := by
  unfold lastPiece
  rw [h]
  cases p with
  | nil => cases hne rfl
  | cons a t => rfl

theorem mem_lastPiece {parts : List Str} {l : Str} (h : l ∈ lastPiece parts) :
    parts.getLast? = some l := by
  unfold lastPiece at h
  split at h
  · cases h
  · rename_i p heq
    rcases List.mem_singleton.mp h with rfl
    exact heq
  · cases h

theorem mem_rustLines {s l : Str} (hl : l ∈ rustLines s) :
    (∀ x ∈ l, x ∈ s) ∧ '\n' ∉ l := by
  simp only [rustLines] at hl
  rcases List.mem_append.mp hl with hl | hl
  · rcases List.mem_map.mp hl with ⟨p, hp, rfl⟩
    have hp2 : p ∈ s.splitOn '\n' := List.dropLast_subset _ hp
    constructor
    · intro x hx
      exact (splitOn_pieces hp2 x (stripCR_subset x hx)).1
    · intro hx
      exact (splitOn_pieces hp2 _ (stripCR_subset _ hx)).2 rfl
  · have hp2 : l ∈ s.splitOn '\n' := List.mem_of_mem_getLast? (mem_lastPiece hl)
    exact ⟨fun x hx => (splitOn_pieces hp2 x hx).1,
      fun hx => (splitOn_pieces hp2 _ hx).2 rfl⟩

theorem importRows_rows {k : Nat} {ls : List Str} :
    ∀ row ∈ importRows k ls, ∃ i line, line ∈ ls ∧ row = parseRow i line := by
  induction ls generalizing k with
  | nil => intro row hrow; cases hrow
  | cons line rest ih =>
    intro row hrow
    rw [importRows] at hrow
    split at hrow
    · rcases List.mem_cons.mp hrow with rfl | hrow2
      · exact ⟨k, line, by simp, rfl⟩
      · rcases ih row hrow2 with ⟨i, l2, hl2, rfl⟩
        exact ⟨i, l2, List.mem_cons_of_mem _ hl2, rfl⟩
    · rcases ih row hrow with ⟨i, l2, hl2, rfl⟩
      exact ⟨i, l2, List.mem_cons_of_mem _ hl2, rfl⟩

theorem parseRow_clean {i : Nat} {line : Str} (hnl : '\n' ∉ line) :
    ∀ c ∈ parseRow i line, CleanCell c := by
  intro c hc
  rcases List.mem_map.mp hc with ⟨piece, hpiece, rfl⟩
  simp only [normalizeCell]
  split
  · exact ⟨by decide, by decide, by decide⟩
  · refine ⟨trimStr_idem piece, ?_, ?_⟩
    · intro hmem
      exact (splitOn_pieces hpiece _ (mem_trimStr hmem)).2 rfl
    · intro hmem
      exact hnl ((splitOn_pieces hpiece _ (mem_trimStr hmem)).1)

theorem rows_subset_map {f : List Str → List Str}
    (hf : ∀ r, ∀ c ∈ f r, c ∈ r) (cells : List (List Str)) :
    ∀ row ∈ cells.map f, ∃ row₀ ∈ cells, ∀ c ∈ row, c ∈ row₀ := by
  intro row hrow
  rcases List.mem_map.mp hrow with ⟨r, hr, rfl⟩
  exact ⟨r, hr, hf r⟩

theorem removeEmptyEdgeColumns_rows (w : Char → Nat) (cells : List (List Str)) :
    ∀ row ∈ removeEmptyEdgeColumns w cells, ∃ row₀ ∈ cells, ∀ c ∈ row, c ∈ row₀ := by
  intro row hrow
  simp only [removeEmptyEdgeColumns] at hrow
  set c1 := (if (getColumnWidths w cells)[0]? = some 0 then
    cells.map (List.drop 1) else cells) with hc1
  have hprov1 : ∀ cl ∈ c1, ∃ row₀ ∈ cells, ∀ x ∈ cl, x ∈ row₀ := by
    rw [hc1]
    split
    · exact rows_subset_map (fun r c hc => List.drop_subset 1 r hc) cells
    · exact fun cl hcl => ⟨cl, hcl, fun c h => h⟩
  split at hrow
  · exact ⟨row, hrow, fun c h => h⟩
  · repeat' split at hrow
    all_goals
      first
      | exact hprov1 row hrow
      | (rcases List.mem_map.mp hrow with ⟨r, hr, rfl⟩
         rcases hprov1 r hr with ⟨row₀, hrow₀, hsub⟩
         refine ⟨row₀, hrow₀, fun c hc => hsub c ?_⟩
         split at hc
         · exact List.dropLast_subset _ hc
         · exact hc)

theorem importTable_clean {w : Char → Nat} {t : Str} {cells : List (List Str)}
    (h : importTable w t = .ok cells) :
    ∀ row ∈ cells, ∀ c ∈ row, CleanCell c := by
  simp only [importTable] at h
  split at h
  · cases h
  · injection h with h
    subst h
    intro row hrow c hc
    rcases removeEmptyEdgeColumns_rows w _ row hrow with ⟨row₀, hrow₀, hsub⟩
    rcases importRows_rows row₀ hrow₀ with ⟨i, line, hline, rfl⟩
    have hline2 : line ∈ rustLines t :=
      (List.dropWhile_sublist _).mem hline
    exact parseRow_clean (mem_rustLines hline2).2 _ (hsub c hc)

/-! ## Structure of rendered lines -/

theorem intercalate_cons₂ (s a b : Str) (t : List Str) :
    List.intercalate s (a :: b :: t) = a ++ s ++ List.intercalate s (b :: t) := by
  simp [List.intercalate, List.intersperse_cons_cons, List.flatten_cons,
    List.append_assoc]

theorem intercalate_concat_nil (x : Char) : ∀ (xs : List Str), xs ≠ [] →
    List.intercalate [x] (xs ++ [([] : Str)]) = List.intercalate [x] xs ++ [x] := by
  intro xs
  induction xs with
  | nil => intro h; cases h rfl
  | cons a t ih =>
    intro _
    cases t with
    | nil =>
      rw [List.cons_append, List.nil_append, intercalate_cons₂]
      simp [List.intercalate]
    | cons b t2 =>
      rw [List.cons_append a (b :: t2) [([] : Str)],
        List.cons_append b t2 [([] : Str)],
        intercalate_cons₂ [x] a b (t2 ++ [([] : Str)]),
        ← List.cons_append b t2 [([] : Str)], ih (by simp),
        intercalate_cons₂ [x] a b t2]
      simp [List.append_assoc]

theorem map_decorated_intercalate (d : Char) : ∀ (row : List Str), row ≠ [] →
    List.intercalate ['|'] (row.map (fun c => d :: (c ++ [d]))) =
      d :: (List.intercalate [d, '|', d] row ++ [d]) := by
  intro row
  induction row with
  | nil => intro h; cases h rfl
  | cons c rest ih =>
    intro _
    cases rest with
    | nil => simp [List.intercalate]
    | cons c2 rest2 =>
      have hih := ih (by simp)
      rw [List.map_cons] at hih
      rw [List.map_cons, List.map_cons, intercalate_cons₂, hih,
        intercalate_cons₂ _ c c2 rest2]
      simp [List.append_assoc]

theorem renderRow_pieces (d : Char) (row : List Str) (hne : row ≠ []) :
    '|' :: d :: (List.intercalate [d, '|', d] row ++ [d, '|']) =
      List.intercalate ['|']
        (([] : Str) :: (row.map (fun c => d :: (c ++ [d])) ++ [([] : Str)])) := by
  have hm : row.map (fun c => d :: (c ++ [d])) ≠ [] := by
    simpa using hne
  rcases List.exists_cons_of_ne_nil hm with ⟨p, ps, hp⟩
  rw [hp, List.cons_append p ps [([] : Str)],
    intercalate_cons₂ ['|'] ([] : Str) p (ps ++ [([] : Str)]),
    ← List.cons_append p ps [([] : Str)], ← hp,
    intercalate_concat_nil '|' _ hm, map_decorated_intercalate d row hne]
  simp

theorem splitOn_decorated (d : Char) (hd : d ≠ '|') (row : List Str)
    (hne : row ≠ []) (hp : ∀ c ∈ row, '|' ∉ c) :
    ('|' :: d :: (List.intercalate [d, '|', d] row ++ [d, '|'])).splitOn '|' =
      ([] : Str) :: (row.map (fun c => d :: (c ++ [d])) ++ [([] : Str)]) := by
  rw [renderRow_pieces d row hne]
  apply List.splitOn_intercalate
  · intro l hl
    rcases List.mem_cons.mp hl with rfl | hl2
    · simp
    · rcases List.mem_append.mp hl2 with hl3 | hl3
      · rcases List.mem_map.mp hl3 with ⟨c, hc, rfl⟩
        intro hmem
        rcases List.mem_cons.mp hmem with h | h
        · exact hd h.symm
        · rcases List.mem_append.mp h with h2 | h2
          · exact hp c hc h2
          · simp at h2
            exact hd h2.symm
      · simp at hl3
        subst hl3
        simp
  · simp

theorem mem_intersperse {s : Str} :
    ∀ {l : List Str} {p : Str}, p ∈ List.intersperse s l → p = s ∨ p ∈ l := by
  intro l
  induction l with
  | nil => intro p hp; cases hp
  | cons a t ih =>
    intro p hp
    cases t with
    | nil =>
      simp at hp
      subst hp
      right
      simp
    | cons b t2 =>
      rw [List.intersperse_cons_cons] at hp
      rcases List.mem_cons.mp hp with rfl | hp2
      · right; simp
      · rcases List.mem_cons.mp hp2 with rfl | hp3
        · left; rfl
        · rcases ih hp3 with h | h
          · left; exact h
          · right; exact List.mem_cons_of_mem _ h

theorem mem_of_mem_intercalate {s : Str} {l : List Str} {x : Char}
    (h : x ∈ List.intercalate s l) : x ∈ s ∨ ∃ p ∈ l, x ∈ p := by
  rw [List.intercalate] at h
  rcases List.mem_flatten.mp h with ⟨p, hp, hx⟩
  rcases mem_intersperse hp with rfl | hp2
  · left; exact hx
  · right; exact ⟨p, hp2, hx⟩

theorem mem_decorated_line {d : Char} {row : List Str} {x : Char}
    (h : x ∈ '|' :: d :: (List.intercalate [d, '|', d] row ++ [d, '|'])) :
    x = '|' ∨ x = d ∨ ∃ c ∈ row, x ∈ c := by
  rcases List.mem_cons.mp h with rfl | h
  · left; rfl
  rcases List.mem_cons.mp h with rfl | h
  · right; left; rfl
  rcases List.mem_append.mp h with h | h
  · rcases mem_of_mem_intercalate h with h | h
    · rcases List.mem_cons.mp h with rfl | h
      · right; left; rfl
      rcases List.mem_cons.mp h with rfl | h
      · left; rfl
      · simp at h
        subst h
        right; left; rfl
    · right; right; exact h
  · rcases List.mem_cons.mp h with rfl | h
    · right; left; rfl
    · simp at h
      subst h
      left; rfl

theorem getLast?_decorated_line (d : Char) (row : List Str) :
    ('|' :: d :: (List.intercalate [d, '|', d] row ++ [d, '|'])).getLast? =
      some '|' := by
  have h : '|' :: d :: (List.intercalate [d, '|', d] row ++ [d, '|']) =
      ('|' :: d :: (List.intercalate [d, '|', d] row ++ [d])) ++ ['|'] := by
    simp
  rw [h, List.getLast?_concat]

theorem flatten_map_append_newline (ls : List Str) (hne : ls ≠ []) :
    ((ls.map (fun l => l ++ ['\n'])).flatten) =
      List.intercalate ['\n'] (ls ++ [([] : Str)]) := by
  induction ls with
  | nil => cases hne rfl
  | cons a t ih =>
    cases t with
    | nil =>
      rw [List.cons_append, List.nil_append, intercalate_cons₂]
      simp [List.intercalate]
    | cons b t2 =>
      rw [List.map_cons, List.flatten_cons, ih (by simp),
        List.cons_append a (b :: t2) [([] : Str)],
        List.cons_append b t2 [([] : Str)],
        intercalate_cons₂ ['\n'] a b (t2 ++ [([] : Str)])]

theorem rustLines_flatten (ls : List Str) (hne : ls ≠ [])
    (hnl : ∀ l ∈ ls, '\n' ∉ l) (hcr : ∀ l ∈ ls, l.getLast? ≠ some '\r') :
    rustLines ((ls.map (fun l => l ++ ['\n'])).flatten) = ls := by
  rw [flatten_map_append_newline ls hne]
  simp only [rustLines]
  rw [List.splitOn_intercalate (ls ++ [([] : Str)]) '\n' ?pieces (by simp)]
  case pieces =>
    intro l hl
    rcases List.mem_append.mp hl with h | h
    · exact hnl l h
    · simp at h
      subst h
      simp
  have hlast : ((ls ++ [([] : Str)]).getLast? = some ([] : Str)) :=
    List.getLast?_concat _
  rw [lastPiece_of_last_nil hlast, List.append_nil, List.dropLast_concat]
  have hid : ∀ l ∈ ls, stripCR l = l := by
    intro l hl
    unfold stripCR
    rw [if_neg (hcr l hl)]
  rw [List.map_congr_left (g := id) (fun a ha => hid a ha), List.map_id]

theorem renderOutput_eq_flatten (h s : List Str) (data : List (List Str)) :
    renderOutput (h :: s :: data) =
      (((renderRowContent h :: renderSepContent s :: data.map renderRowContent).map
        (fun l => l ++ ['\n'])).flatten) := by
  simp only [renderOutput, List.map_cons, List.flatten_cons, List.map_map,
    List.append_assoc]
  rfl

theorem rustLines_renderOutput (p0 p1 : List Str) (prest : List (List Str))
    (hnl : ∀ r ∈ p0 :: p1 :: prest, ∀ c ∈ r, '\n' ∉ c) :
    rustLines (renderOutput (p0 :: p1 :: prest)) =
      renderRowContent p0 :: renderSepContent p1 :: prest.map renderRowContent := by
  rw [renderOutput_eq_flatten]
  apply rustLines_flatten
  · simp
  · intro l hl
    have key : ∀ (d : Char) (r : List Str), d ≠ '\n' → (∀ c ∈ r, '\n' ∉ c) →
        '\n' ∉ '|' :: d :: (List.intercalate [d, '|', d] r ++ [d, '|']) := by
      intro d r hd hr hmem
      rcases mem_decorated_line hmem with h | h | ⟨c, hc, h⟩
      · cases h
      · exact hd h.symm
      · exact hr c hc h
    rcases List.mem_cons.mp hl with rfl | hl
    · exact key ' ' p0 (by decide) (hnl p0 (by simp))
    rcases List.mem_cons.mp hl with rfl | hl
    · exact key '-' p1 (by decide) (hnl p1 (by simp))
    · rcases List.mem_map.mp hl with ⟨r, hr, rfl⟩
      exact key ' ' r (by decide) (hnl r (by simp [hr]))
  · intro l hl
    have key : ∀ (d : Char) (r : List Str),
        ('|' :: d :: (List.intercalate [d, '|', d] r ++ [d, '|'])).getLast? ≠
          some '\r' := by
      intro d r
      rw [getLast?_decorated_line]
      decide
    rcases List.mem_cons.mp hl with rfl | hl
    · exact key ' ' p0
    rcases List.mem_cons.mp hl with rfl | hl
    · exact key '-' p1
    · rcases List.mem_map.mp hl with ⟨r, hr, rfl⟩
      exact key ' ' r

/-! ## C2: the pipe-count invariant -/

theorem mem_zipWith {f : Nat → Str → Str} {as : List Nat} {bs : List Str} {x : Str}
    (h : x ∈ List.zipWith f as bs) : ∃ a ∈ as, ∃ b ∈ bs, x = f a b := by
  induction as generalizing bs with
  | nil => simp at h
  | cons a as ih =>
    cases bs with
    | nil => simp at h
    | cons b bs =>
      rw [List.zipWith_cons_cons] at h
      rcases List.mem_cons.mp h with rfl | h2
      · exact ⟨a, by simp, b, by simp, rfl⟩
      · rcases ih h2 with ⟨a2, ha2, b2, hb2, rfl⟩
        exact ⟨a2, List.mem_cons_of_mem _ ha2, b2, List.mem_cons_of_mem _ hb2, rfl⟩

theorem padCellsFun_mem {w : Char → Nat} {widths : List Nat} {k : Nat}
    {cells : List (List Str)} {row' : List Str}
    (h : row' ∈ padCellsFun w widths k cells) :
    ∃ i row, cells[i]? = some row ∧
      row' = List.zipWith (padCellFun w (k + i)) widths row := by
  rcases List.mem_iff_getElem?.mp h with ⟨i, hi⟩
  rw [padCellsFun_getElem] at hi
  rcases Option.map_eq_some'.mp hi with ⟨row, hrow, hrow'⟩
  exact ⟨i, row, hrow, hrow'.symm⟩

theorem padCellFun_no_pipe {w : Char → Nat} {rowI target : Nat} {c : Str}
    (hc : '|' ∉ c) : '|' ∉ padCellFun w rowI target c := by
  unfold padCellFun
  intro h
  rcases List.mem_append.mp h with h | h
  · exact hc h
  · have := List.eq_of_mem_replicate h
    split at this <;> cases this

theorem padCellFun_no_newline {w : Char → Nat} {rowI target : Nat} {c : Str}
    (hc : '\n' ∉ c) : '\n' ∉ padCellFun w rowI target c := by
  unfold padCellFun
  intro h
  rcases List.mem_append.mp h with h | h
  · exact hc h
  · have := List.eq_of_mem_replicate h
    split at this <;> cases this

theorem isSeparatorRow_facts {cells : List (List Str)}
    (h : isSeparatorRow cells 1 = true) :
    ∃ row, cells[1]? = some row ∧ row ≠ [] ∧
      ∀ c ∈ row, c ≠ [] ∧ ∀ x ∈ c, x = '-' := by
  unfold isSeparatorRow at h
  split at h
  · cases h
  · rename_i row hrow
    rw [Bool.and_eq_true, List.all_eq_true] at h
    refine ⟨row, hrow, by simpa using h.1, fun c hc => ?_⟩
    have h2 := h.2 c hc
    rw [Bool.and_eq_true, List.all_eq_true] at h2
    exact ⟨by simpa using h2.1, fun x hx => by simpa using h2.2 x hx⟩

theorem one_le_cols_of_sep {w : Char → Nat} {cells : List (List Str)}
    (h : isSeparatorRow cells 1 = true) :
    1 ≤ (getColumnWidths w cells).length := by
  rcases isSeparatorRow_facts h with ⟨row, hrow, hne, -⟩
  have hmem : row ∈ cells := List.getElem?_mem hrow
  have h2 := row_length_le_getColumnWidths w cells row hmem
  rcases row with _ | ⟨c, cs⟩
  · cases hne rfl
  · simp at h2
    omega

theorem count_pipe_intercalate (d : Char) (hd : (d == '|') = false) :
    ∀ (row : List Str), row ≠ [] → (∀ c ∈ row, '|' ∉ c) →
    List.count '|' (List.intercalate [d, '|', d] row) = row.length - 1 := by
  intro row
  induction row with
  | nil => intro h; cases h rfl
  | cons c rest ih =>
    intro _ hp
    cases rest with
    | nil =>
      simp [List.intercalate]
      exact List.count_eq_zero.mpr (hp c (by simp))
    | cons c2 rest2 =>
      rw [intercalate_cons₂, List.count_append, List.count_append,
        ih (by simp) (fun x hx => hp x (List.mem_cons_of_mem _ hx))]
      have hc : List.count '|' c = 0 := List.count_eq_zero.mpr (hp c (by simp))
      have hmid : List.count '|' [d, '|', d] = 1 := by
        simp [List.count_cons, hd]
      rw [hc, hmid]
      simp
      omega

theorem count_pipe_decorated (d : Char) (hd : (d == '|') = false)
    (row : List Str) (hne : row ≠ []) (hp : ∀ c ∈ row, '|' ∉ c) :
    List.count '|' ('|' :: d :: (List.intercalate [d, '|', d] row ++ [d, '|'])) =
      row.length + 1 := by
  rw [List.count_cons, List.count_cons, List.count_append,
    count_pipe_intercalate d hd row hne hp]
  have h1 : List.count '|' [d, '|'] = 1 := by simp [List.count_cons, hd]
  rw [h1]
  have : 1 ≤ row.length := by
    rcases row with _ | ⟨c, cs⟩
    · cases hne rfl
    · simp
  simp [hd]
  omega

/-- C2: every line of a successful output contains exactly `column_count + 1`
pipe characters. -/
theorem formatTable_pipe_count (w : Char → Nat) (t out : Str)
    (cells : List (List Str))
    (himp : importTable w t = .ok cells)
    (hok : formatTable w t = some (.ok out)) :
    ∀ line ∈ rustLines out,
      List.count '|' line = (getColumnWidths w cells).length + 1 := by
  obtain ⟨-, cells', himp', hlen2, -, -, -, hsep, hout⟩ :=
    formatTable_ok_inversion w t out hok
  rw [himp] at himp'
  injection himp' with e
  subst e
  have hclean := importTable_clean himp
  have hle : ∀ r ∈ cells, r.length ≤ (getColumnWidths w cells).length :=
    fun r hr => row_length_le_getColumnWidths w cells r hr
  have hrowlen := addMissing_row_length (getColumnWidths w cells).length cells hle
  have hcols1 : 1 ≤ (getColumnWidths w cells).length := one_le_cols_of_sep hsep
  have hclean2 : ∀ row ∈ addMissingCellColumns (getColumnWidths w cells).length cells,
      ∀ c ∈ row, '|' ∉ c ∧ '\n' ∉ c := by
    intro row hrow c hc
    rcases List.mem_map.mp hrow with ⟨r, hr, rfl⟩
    rcases List.mem_append.mp hc with h | h
    · have := hclean r hr c h
      exact ⟨this.2.1, this.2.2⟩
    · have := List.eq_of_mem_replicate h
      subst this
      exact ⟨by simp, by simp⟩
  have hpad : ∀ row' ∈ padCellsFun w (getColumnWidths w cells) 0
      (addMissingCellColumns (getColumnWidths w cells).length cells),
      row'.length = (getColumnWidths w cells).length ∧
        (∀ c ∈ row', '|' ∉ c ∧ '\n' ∉ c) := by
    intro row' hrow'
    rcases padCellsFun_mem hrow' with ⟨i, row, hrowi, rfl⟩
    have hrowmem := List.getElem?_mem hrowi
    constructor
    · rw [List.length_zipWith, hrowlen row hrowmem]
      simp
    · intro c hc
      rcases mem_zipWith hc with ⟨target, -, orig, horigmem, rfl⟩
      have hcl := hclean2 row hrowmem orig horigmem
      exact ⟨padCellFun_no_pipe hcl.1, padCellFun_no_newline hcl.2⟩
  rcases cells with _ | ⟨c0, rest⟩
  · simp at hlen2
  rcases rest with _ | ⟨c1, crest⟩
  · simp at hlen2
  rw [hout]
  set widths := getColumnWidths w (c0 :: c1 :: crest) with hw
  have hunf : padCellsFun w widths 0
      (addMissingCellColumns widths.length (c0 :: c1 :: crest)) =
      List.zipWith (padCellFun w 0) widths
          (c0 ++ List.replicate (widths.length - c0.length) []) ::
        List.zipWith (padCellFun w 1) widths
          (c1 ++ List.replicate (widths.length - c1.length) []) ::
        padCellsFun w widths 2
          (crest.map (fun row => row ++ List.replicate (widths.length - row.length) [])) := by
    rw [addMissingCellColumns, List.map_cons, List.map_cons,
      padCellsFun, padCellsFun]
  rw [hunf] at hpad ⊢
  rw [rustLines_renderOutput _ _ _ (fun r hr c hc => ((hpad r hr).2 c hc).2)]
  intro line hline
  have main : ∀ (d : Char), (d == '|') = false → ∀ r,
      (r ∈ List.zipWith (padCellFun w 0) widths
          (c0 ++ List.replicate (widths.length - c0.length) []) ::
        List.zipWith (padCellFun w 1) widths
          (c1 ++ List.replicate (widths.length - c1.length) []) ::
        padCellsFun w widths 2
          (crest.map (fun row => row ++ List.replicate (widths.length - row.length) []))) →
      List.count '|' ('|' :: d :: (List.intercalate [d, '|', d] r ++ [d, '|'])) =
        widths.length + 1 := by
    intro d hd r hr
    have hfacts := hpad r hr
    have hne : r ≠ [] := by
      intro hc
      rw [hc] at hfacts
      simp at hfacts
      omega
    rw [count_pipe_decorated d hd r hne (fun c hc => (hfacts.2 c hc).1), hfacts.1]
  rcases List.mem_cons.mp hline with rfl | hline
  · exact main ' ' (by decide) _ (by simp)
  rcases List.mem_cons.mp hline with rfl | hline
  · exact main '-' (by decide) _ (by simp)
  · rcases List.mem_map.mp hline with ⟨r, hr, rfl⟩
    exact main ' ' (by decide) r (by simp [hr])

/-- C2 witness: on a concrete two-column table each of the three output lines
has three pipes. -/
theorem formatTable_pipe_count_witness :
    List.count '|' (str "| a | b |") =
      (getColumnWidths w1 [[str "a", str "b"], [str "-", str "-"],
        [str "1", str "2"]]).length + 1 ∧
    List.count '|' (str "|---|---|") =
      (getColumnWidths w1 [[str "a", str "b"], [str "-", str "-"],
        [str "1", str "2"]]).length + 1 ∧
    List.count '|' (str "| 1 | 2 |") =
      (getColumnWidths w1 [[str "a", str "b"], [str "-", str "-"],
        [str "1", str "2"]]).length + 1 := by
  have h := formatTable_pipe_count w1 (str "| a | b |\n|-|-|\n| 1 | 2 |")
    (str "| a | b |\n|---|---|\n| 1 | 2 |\n")
    [[str "a", str "b"], [str "-", str "-"], [str "1", str "2"]]
    (by decide) (by decide)
  exact ⟨h (str "| a | b |") (by decide), h (str "|---|---|") (by decide),
    h (str "| 1 | 2 |") (by decide)⟩

/-! ## C7: document passthrough -/

theorem isCandidate_false {l : Str} (hp : '|' ∉ l) : isCandidate l = false := by
  have h1 : ¬ (trimStr l).head? = some '|' := by
    intro hc
    apply hp
    apply mem_trimStr
    cases htl : trimStr l with
    | nil => rw [htl] at hc; cases hc
    | cons a as =>
      rw [htl] at hc
      simp at hc
      subst hc
      simp [htl]
  have h2 : l.contains '|' = false := by simpa using hp
  simp only [isCandidate, h2, Bool.false_and, Bool.or_false]
  exact decide_eq_false h1

theorem formatDocLoopF_passthrough (w : Char → Nat) :
    ∀ (fuel : Nat) (ls : List Str), ls.length ≤ fuel →
    (∀ l ∈ ls, isCandidate l = false) →
    formatDocLoopF w fuel ls =
      some ((ls.map (fun l => l ++ ['\n'])).flatten) := by
  intro fuel
  induction fuel with
  | zero =>
    intro ls h hc
    cases ls with
    | nil => simp [formatDocLoopF]
    | cons a l => simp at h
  | succ fuel ih =>
    intro ls h hc
    cases ls with
    | nil => simp [formatDocLoopF]
    | cons line rest =>
      rw [formatDocLoopF, hc line (by simp)]
      simp only [Bool.false_eq_true, if_false]
      rw [ih rest (by simp at h; omega)
        (fun l hl => hc l (List.mem_cons_of_mem _ hl))]
      simp

theorem intercalate_concat (x : Char) (p : Str) : ∀ (xs : List Str), xs ≠ [] →
    List.intercalate [x] (xs ++ [p]) = List.intercalate [x] xs ++ x :: p := by
  intro xs
  induction xs with
  | nil => intro h; cases h rfl
  | cons a t ih =>
    intro _
    cases t with
    | nil =>
      rw [List.cons_append, List.nil_append, intercalate_cons₂]
      simp [List.intercalate]
    | cons b t2 =>
      rw [List.cons_append a (b :: t2) [p],
        List.cons_append b t2 [p],
        intercalate_cons₂ [x] a b (t2 ++ [p]),
        ← List.cons_append b t2 [p], ih (by simp),
        intercalate_cons₂ [x] a b t2]
      simp [List.append_assoc]

theorem mem_dropLast_intercalate (p : Str) :
    ∀ parts : List Str, p ∈ parts.dropLast →
    ∃ pre suf, List.intercalate ['\n'] parts = pre ++ p ++ '\n' :: suf := by
  intro parts
  induction parts with
  | nil => intro h; cases h
  | cons a t ih =>
    intro h
    cases t with
    | nil => cases h
    | cons b t2 =>
      rw [intercalate_cons₂]
      have h2 : p = a ∨ p ∈ (b :: t2).dropLast := by
        simpa using List.mem_cons.mp (by simpa [List.dropLast] using h)
      rcases h2 with rfl | h2
      · exact ⟨[], List.intercalate ['\n'] (b :: t2), by simp⟩
      · obtain ⟨pre, suf, hps⟩ := ih h2
        exact ⟨a ++ '\n' :: pre, suf, by simp [hps, List.append_assoc]⟩

/-- C7 (amended): `format_document` reproduces a document exactly, including
the absence of a trailing newline, provided the document contains no pipe
character and no CRLF sequence (`str::lines` consumes `"\r\n"` terminators, so
a CRLF document comes back with bare LF endings; a carriage return anywhere
else is preserved). -/
theorem formatDocument_passthrough (w : Char → Nat) (d : Str)
    (hp : '|' ∉ d) (hcrlf : ¬ List.IsInfix ['\r', '\n'] d) :
    formatDocument w d = some d := by
  have hlines_pipe : ∀ l ∈ rustLines d, '|' ∉ l :=
    fun l hl hx => hp ((mem_rustLines hl).1 _ hx)
  have hcand : ∀ l ∈ rustLines d, isCandidate l = false :=
    fun l hl => isCandidate_false (hlines_pipe l hl)
  simp only [formatDocument]
  rw [formatDocLoopF_passthrough w _ _ le_rfl hcand]
  simp only [Option.map_some']
  by_cases hd0 : d = []
  · subst hd0
    rfl
  -- pieces of the newline split
  have hne : d.splitOn '\n' ≠ [] := by
    simp only [List.splitOn]
    exact List.splitOnP_ne_nil _ d
  have hd_eq : List.intercalate ['\n'] (d.splitOn '\n') = d :=
    List.intercalate_splitOn d '\n'
  have hpieces : ∀ p ∈ d.splitOn '\n', '\n' ∉ p := by
    intro p hp2 hx
    exact (splitOn_pieces hp2 '\n' hx).2 rfl
  -- a non-final piece ending in CR would form a CRLF at its terminator
  have hnocr : ∀ p ∈ (d.splitOn '\n').dropLast, p.getLast? ≠ some '\r' := by
    intro p hpd hlastcr
    apply hcrlf
    obtain ⟨pre, suf, hps⟩ := mem_dropLast_intercalate p (d.splitOn '\n') hpd
    rw [hd_eq] at hps
    obtain ⟨q, hq⟩ : ∃ q, p = q ++ ['\r'] :=
      ⟨p.dropLast, (List.dropLast_append_getLast? _ hlastcr).symm⟩
    refine ⟨pre ++ q, suf, ?_⟩
    rw [hps, hq]
    simp [List.append_assoc]
  -- stripCR is the identity on the terminated pieces
  have hstrip : ((d.splitOn '\n').dropLast).map stripCR =
      (d.splitOn '\n').dropLast := by
    rw [List.map_congr_left (g := id) (fun p hp2 => by
      unfold stripCR
      rw [if_neg (hnocr p hp2)]
      rfl), List.map_id]
  simp only [rustLines, hstrip]
  by_cases hA : (d.splitOn '\n').getLast? = some []
  · rw [lastPiece_of_last_nil hA, List.append_nil]
    have hsplit2 : (d.splitOn '\n').dropLast ++ [([] : Str)] = d.splitOn '\n' :=
      List.dropLast_append_getLast? _ hA
    by_cases hB : (d.splitOn '\n').dropLast = []
    · exfalso
      apply hd0
      rw [← hd_eq, ← hsplit2, hB]
      rfl
    · rw [flatten_map_append_newline _ hB, hsplit2, hd_eq]
      have hdlast : d.getLast? = some '\n' := by
        rw [← hd_eq, ← hsplit2, intercalate_concat_nil '\n' _ hB]
        exact List.getLast?_concat _
      rw [if_neg (by simp [hdlast])]
  · obtain ⟨plast, hplast⟩ : ∃ p, (d.splitOn '\n').getLast? = some p := by
      cases hx : (d.splitOn '\n').getLast? with
      | none => rw [List.getLast?_eq_none_iff] at hx; exact absurd hx hne
      | some p => exact ⟨p, rfl⟩
    have hplast_ne : plast ≠ [] := by
      intro hcon
      rw [hcon] at hplast
      exact hA hplast
    have hplast_mem : plast ∈ d.splitOn '\n' := List.mem_of_mem_getLast? hplast
    have hsplit2' : (d.splitOn '\n').dropLast ++ [plast] = d.splitOn '\n' :=
      List.dropLast_append_getLast? _ hplast
    rw [lastPiece_of_last_ne hplast hplast_ne, hsplit2']
    rw [flatten_map_append_newline _ hne, intercalate_concat_nil '\n' _ hne, hd_eq]
    -- the document does not end in a newline
    have hsplit2 : (d.splitOn '\n').dropLast ++ [plast] = d.splitOn '\n' :=
      List.dropLast_append_getLast? _ hplast
    have hdlast : d.getLast? ≠ some '\n' := by
      intro hcon
      have hmem : '\n' ∈ plast := by
        rw [← hd_eq, ← hsplit2] at hcon
        by_cases hC : (d.splitOn '\n').dropLast = []
        · rw [hC] at hcon
          simp [List.intercalate] at hcon
          exact List.mem_of_mem_getLast? hcon
        · rw [intercalate_concat '\n' _ _ hC, List.getLast?_append] at hcon
          have h3 : ('\n' :: plast).getLast? = plast.getLast? := by
            rcases List.exists_cons_of_ne_nil hplast_ne with ⟨c, cs, rfl⟩
            rfl
          rw [h3] at hcon
          cases hx : plast.getLast? with
          | none => rw [List.getLast?_eq_none_iff] at hx; exact absurd hx hplast_ne
          | some c =>
            rw [hx] at hcon
            simp at hcon
            subst hcon
            exact List.mem_of_mem_getLast? hx
      exact hpieces plast hplast_mem hmem
    rw [if_pos ⟨hdlast, List.getLast?_concat _⟩, List.dropLast_concat]

/-- C7 witness: pipe-free documents without CRLF pass through exactly —
including one with a bare carriage return, which `str::lines` preserves. -/
theorem formatDocument_passthrough_witness :
    formatDocument w1 (str "ab\ncd") = some (str "ab\ncd") ∧
    formatDocument w1 (str "a\rb") = some (str "a\rb") :=
  ⟨formatDocument_passthrough w1 (str "ab\ncd") (by decide) (by decide),
   formatDocument_passthrough w1 (str "a\rb") (by decide) (by decide)⟩

/-- C4 witness: the amended characterization evaluated at concrete inputs. -/
theorem formatTable_emptyInput_iff_witness :
    formatTable w1 (str "hello") =
        some (.error (.InvalidStructure "No table rows found in input")) ∧
    formatTable w1 (str " ") = some (.error .EmptyInput) :=
  ⟨(formatTable_emptyInput_iff w1 (str "hello")).2 (by decide) (by decide),
    (formatTable_emptyInput_iff w1 (str " ")).1.mpr (by decide)⟩

/-- C10 witness: totality evaluated at concrete inputs. -/
theorem formatTable_formatDocument_total_witness :
    (formatTable w1 (str "|a|\n|-|")).isSome = true ∧
    (formatDocument w1 (str "x")).isSome = true :=
  ⟨(formatTable_formatDocument_total w1).1 (str "|a|\n|-|"),
    (formatTable_formatDocument_total w1).2.1 (str "x")⟩

/-! ## C8: scanner step behavior -/

theorem isCandidate_contains {l : Str} (h : isCandidate l = true) :
    l.contains '|' = true := by
  unfold isCandidate at h
  rcases Bool.or_eq_true _ _ |>.mp h with h1 | h2
  · have hd : (trimStr l).head? = some '|' := of_decide_eq_true h1
    have hmem : '|' ∈ l := by
      apply mem_trimStr
      cases htl : trimStr l with
      | nil => rw [htl] at hd; cases hd
      | cons a as =>
        rw [htl] at hd
        simp at hd
        subst hd
        simp [htl]
    simpa using hmem
  · exact (Bool.and_eq_true _ _ |>.mp h2).1

theorem formatDocLoopF_fuel_irrel (w : Char → Nat) :
    ∀ (fuel₁ : Nat) (ls : List Str) (fuel₂ : Nat), ls.length ≤ fuel₁ →
      ls.length ≤ fuel₂ →
      formatDocLoopF w fuel₁ ls = formatDocLoopF w fuel₂ ls := by
  intro fuel₁
  induction fuel₁ with
  | zero =>
    intro ls fuel₂ h1 h2
    cases ls with
    | nil => cases fuel₂ <;> rfl
    | cons a l => simp at h1
  | succ f₁ ih =>
    intro ls fuel₂ h1 h2
    cases ls with
    | nil => cases fuel₂ <;> rfl
    | cons line rest =>
      cases fuel₂ with
      | zero => simp at h2
      | succ f₂ =>
        rw [formatDocLoopF, formatDocLoopF]
        simp only [List.length_cons] at h1 h2
        split
        · split
          · rfl
          · rename_i n f heq
            rw [ih (rest.drop (n - 1)) f₂
              (by rw [List.length_drop]; omega)
              (by rw [List.length_drop]; omega)]
          · rw [ih rest f₂ (by omega) (by omega)]
        · rw [ih rest f₂ (by omega) (by omega)]

/-- C8: when the greedy candidate block fails to format, the scanner emits
the candidate line verbatim and advances one line; when it succeeds, it emits
the formatted block and advances past all consumed lines; `format_document`
never fails. -/
theorem formatDocument_scanner_step (w : Char → Nat) (line : Str)
    (rest : List Str) (hcand : isCandidate line = true) :
    (∀ e : TableError, formatTable w (List.intercalate ['\n']
        ((line :: rest).takeWhile (fun l => l.contains '|'))) = some (.error e) →
      formatDocLoopF w (line :: rest).length (line :: rest) =
        (formatDocLoopF w rest.length rest).map (fun tail => line ++ '\n' :: tail)) ∧
    (∀ f : Str, formatTable w (List.intercalate ['\n']
        ((line :: rest).takeWhile (fun l => l.contains '|'))) = some (.ok f) →
      formatDocLoopF w (line :: rest).length (line :: rest) =
        (formatDocLoopF w
          ((line :: rest).drop
            ((line :: rest).takeWhile (fun l => l.contains '|')).length).length
          ((line :: rest).drop
            ((line :: rest).takeWhile (fun l => l.contains '|')).length)).map
          (fun tail => f ++ tail)) ∧
    (∀ d : Str, (formatDocument w d).isSome) := by
  have hblock : (line :: rest).takeWhile (fun l => l.contains '|') =
      line :: rest.takeWhile (fun l => l.contains '|') :=
    List.takeWhile_cons_of_pos (isCandidate_contains hcand)
  have hbl1 : 1 ≤ ((line :: rest).takeWhile (fun l => l.contains '|')).length := by
    rw [hblock]
    simp
  refine ⟨?_, ?_, fun d => formatDocument_isSome w d⟩
  · intro e he
    have htry : tryFormatTableAt w (line :: rest) = some none := by
      simp only [tryFormatTableAt]
      rw [if_neg (by omega), he]
    rw [show (line :: rest).length = rest.length + 1 from rfl, formatDocLoopF,
      hcand, if_pos rfl, htry]
  · intro f hf
    set bl := ((line :: rest).takeWhile (fun l => l.contains '|')).length with hbl
    have htry : tryFormatTableAt w (line :: rest) = some (some (bl, f)) := by
      simp only [tryFormatTableAt]
      rw [if_neg (by omega), hf]
    rw [show (line :: rest).length = rest.length + 1 from rfl, formatDocLoopF,
      hcand, if_pos rfl, htry]
    have hdrop : (line :: rest).drop bl = rest.drop (bl - 1) := by
      rcases Nat.exists_eq_add_of_le hbl1 with ⟨k, hk⟩
      have e1 : bl = k + 1 := by omega
      have e2 : bl - 1 = k := by omega
      rw [e2, e1, List.drop_succ_cons]
    rw [hdrop, ← formatDocLoopF_fuel_irrel w rest.length (rest.drop (bl - 1))
      (rest.drop (bl - 1)).length
      (by rw [List.length_drop]; omega) le_rfl]

/-- C8 witness: on `| x |` alone the block fails (`MissingSeparator`), the
line passes through verbatim and scanning advances one line. -/
theorem formatDocument_scanner_step_witness :
    formatDocLoopF w1 [str "| x |"].length [str "| x |"] =
      (formatDocLoopF w1 ([] : List Str).length []).map
        (fun tail => str "| x |" ++ '\n' :: tail) :=
  (formatDocument_scanner_step w1 (str "| x |") [] (by decide)).1
    .MissingSeparator (by decide)

/-! ## C3: towards idempotence -/

theorem getElem?_eq_getD {l : List Nat} {i : Nat} (h : i < l.length) :
    l[i]? = some (l.getD i 0) := by
  rw [List.getD_eq_getElem?_getD, List.getElem?_eq_getElem h]
  rfl

theorem getLast?_eq_getD {l : List Nat} (h : l ≠ []) :
    l.getLast? = some (l.getD (l.length - 1) 0) := by
  rw [List.getLast?_eq_getElem?]
  apply getElem?_eq_getD
  rcases List.exists_cons_of_ne_nil h with ⟨a, t, rfl⟩
  simp

theorem dropWhile_eq_self_of_all {p : Str → Bool} {l : List Str}
    (h : ∀ x ∈ l, p x = false) : l.dropWhile p = l := by
  cases l with
  | nil => rfl
  | cons a t => exact List.dropWhile_cons_of_neg (by simp [h a (by simp)])

theorem importRows_getElem_of_all {ls : List Str}
    (h : ∀ l ∈ ls, l.contains '|' = true) :
    ∀ (k i : Nat), (importRows k ls)[i]? =
      (ls[i]?).map (fun line => parseRow (k + i) line) := by
  induction ls with
  | nil => intro k i; simp [importRows]
  | cons line rest ih =>
    intro k i
    rw [importRows, if_pos (h line (by simp))]
    cases i with
    | zero => simp
    | succ i =>
      simp only [List.getElem?_cons_succ]
      rw [ih (fun l hl => h l (List.mem_cons_of_mem _ hl)) (k + 1) i]
      have e : k + 1 + i = k + (i + 1) := by omega
      rw [e]

theorem removeEmptyEdgeColumns_getElem (w : Char → Nat) (X : List (List Str))
    (i : Nat) :
    ∃ F : List Str → List Str, (∀ r, ∀ c ∈ F r, c ∈ r) ∧
      (removeEmptyEdgeColumns w X)[i]? = (X[i]?).map F := by
  simp only [removeEmptyEdgeColumns]
  set c1 := (if (getColumnWidths w X)[0]? = some 0 then
    X.map (List.drop 1) else X) with hc1
  have h1 : ∃ F1 : List Str → List Str, (∀ r, ∀ c ∈ F1 r, c ∈ r) ∧
      c1[i]? = (X[i]?).map F1 := by
    rw [hc1]
    split
    · exact ⟨List.drop 1, fun r c hc => List.drop_subset 1 r hc,
        List.getElem?_map _ X i⟩
    · exact ⟨id, fun r c hc => hc, by simp⟩
  rcases h1 with ⟨F1, hF1, hc1i⟩
  have hmap : ∀ g : List Str → List Str, (∀ r, ∀ c ∈ g r, c ∈ r) →
      ∃ F : List Str → List Str, (∀ r, ∀ c ∈ F r, c ∈ r) ∧
        (c1.map g)[i]? = (X[i]?).map F := by
    intro g hg
    refine ⟨g ∘ F1, fun r c hc => hF1 r _ (hg _ c hc), ?_⟩
    rw [List.getElem?_map, hc1i]
    cases X[i]? <;> simp
  have hid : ∀ (o : Option (List Str)), o = o.map id := by
    intro o
    cases o <;> rfl
  repeat' split
  all_goals first
    | exact ⟨F1, hF1, hc1i⟩
    | exact ⟨id, fun r c hc => hc, hid _⟩
    | exact hmap _ (fun r c hc => by
        try dsimp only at hc
        split at hc
        · exact List.dropLast_subset _ hc
        · exact hc)

theorem parseRow1_dash_norm {line c : Str} (hc : c ∈ parseRow 1 line)
    (hne : c ≠ []) (hd : ∀ x ∈ c, x = '-') : c = ['-'] := by
  rcases List.mem_map.mp hc with ⟨piece, hpiece, rfl⟩
  revert hne hd
  simp only [normalizeCell]
  split
  · intro _ _
    rfl
  · rename_i hcond
    intro hne hd
    exfalso
    apply hcond
    have hall : (trimStr piece).all (· == '-') = true := by
      rw [List.all_eq_true]
      intro x hx
      simpa using hd x hx
    have hnem : (trimStr piece).isEmpty = false := by
      cases htp : trimStr piece with
      | nil => exact absurd htp hne
      | cons a t => rfl
    simp [hall, hnem]

theorem normalizeCell_nil (i : Nat) : normalizeCell i [] = [] := by
  simp [normalizeCell, trimStr]

theorem normalizeCell_ne_one {i : Nat} (h : i ≠ 1) (piece : Str) :
    normalizeCell i piece = trimStr piece := by
  simp [normalizeCell, h]

theorem trim_space_piece {orig : Str} (h : trimStr orig = orig) (k : Nat) :
    trimStr (' ' :: ((orig ++ List.replicate k ' ') ++ [' '])) = orig := by
  rw [trimStr_cons_ws (by decide), List.append_assoc, trimStr_append_ws ?hws, h]
  case hws =>
    intro x hx
    rcases List.mem_append.mp hx with h2 | h2
    · have := List.eq_of_mem_replicate h2
      subst this
      decide
    · simp at h2
      subst h2
      decide

theorem normalizeCell_sep_piece {w : Char → Nat} {target : Nat} {c : Str}
    (_hne : c ≠ []) (hd : ∀ x ∈ c, x = '-') :
    normalizeCell 1 ('-' :: (padCellFun w 1 target c ++ ['-'])) = ['-'] := by
  have hall : ∀ x ∈ '-' :: (padCellFun w 1 target c ++ ['-']), x = '-' := by
    intro x hx
    rcases List.mem_cons.mp hx with rfl | hx
    · rfl
    rcases List.mem_append.mp hx with hx | hx
    · unfold padCellFun at hx
      rcases List.mem_append.mp hx with hx | hx
      · exact hd x hx
      · have := List.eq_of_mem_replicate hx
        simpa using this
    · simpa using hx
  have htrim := trimStr_all_dash hall
  simp only [normalizeCell, htrim]
  rw [if_pos]
  simp only [Bool.and_eq_true, List.all_eq_true, decide_eq_true_eq]
  refine ⟨⟨trivial, fun x hx => by simpa using hall x hx⟩, by simp⟩

theorem parse_padded_row {w : Char → Nat} {i : Nat} (hne1 : i ≠ 1) :
    ∀ (widths : List Nat) (r : List Str), r.length ≤ widths.length →
    (∀ c ∈ r, trimStr c = c) →
    (List.zipWith (padCellFun w i) widths r).map
      (fun c => normalizeCell i (' ' :: (c ++ [' ']))) = r := by
  intro widths r
  induction r generalizing widths with
  | nil => simp
  | cons c rest ih =>
    intro hlen htr
    cases widths with
    | nil => simp at hlen
    | cons t ws =>
      rw [List.zipWith_cons_cons, List.map_cons,
        ih ws (by simp at hlen; omega)
          (fun c2 h2 => htr c2 (List.mem_cons_of_mem _ h2))]
      congr 1
      rw [normalizeCell_ne_one hne1]
      have hch : (if i = 1 then '-' else ' ') = ' ' := if_neg hne1
      unfold padCellFun
      rw [hch]
      exact trim_space_piece (htr c (by simp)) _

theorem parse_padded_sep (w : Char → Nat) (widths : List Nat) (r : List Str)
    (hd : ∀ c ∈ r, c ≠ [] ∧ ∀ x ∈ c, x = '-') :
    (List.zipWith (padCellFun w 1) widths r).map
      (fun c => normalizeCell 1 ('-' :: (c ++ ['-']))) =
      List.replicate (List.zipWith (padCellFun w 1) widths r).length ['-'] := by
  have := List.eq_replicate_of_mem (a := (['-'] : Str))
    (l := (List.zipWith (padCellFun w 1) widths r).map
      (fun c => normalizeCell 1 ('-' :: (c ++ ['-'])))) ?mem
  · simpa using this
  case mem =>
    intro b hb
    rcases List.mem_map.mp hb with ⟨c', hc', rfl⟩
    rcases mem_zipWith hc' with ⟨target, -, c, hcm, rfl⟩
    exact normalizeCell_sep_piece (hd c hcm).1 (hd c hcm).2

theorem parseRow_render_data {w : Char → Nat} {i : Nat} (hne1 : i ≠ 1)
    (widths : List Nat) (r : List Str)
    (hlen : r.length ≤ widths.length)
    (htr : ∀ c ∈ r, trimStr c = c) (hp : ∀ c ∈ r, '|' ∉ c)
    (hzne : List.zipWith (padCellFun w i) widths r ≠ []) :
    parseRow i (renderRowContent (List.zipWith (padCellFun w i) widths r)) =
      [] :: (r ++ [([] : Str)]) := by
  unfold parseRow
  have hsplit := splitOn_decorated ' ' (by decide)
    (List.zipWith (padCellFun w i) widths r) hzne ?pipes
  case pipes =>
    intro c hc
    rcases mem_zipWith hc with ⟨target, -, orig, horig, rfl⟩
    exact padCellFun_no_pipe (hp orig horig)
  rw [show renderRowContent (List.zipWith (padCellFun w i) widths r) =
    '|' :: ' ' :: (List.intercalate [' ', '|', ' ']
      (List.zipWith (padCellFun w i) widths r) ++ [' ', '|']) from rfl, hsplit]
  rw [List.map_cons, List.map_append, List.map_map, normalizeCell_nil]
  simp only [Function.comp_def]
  rw [parse_padded_row hne1 widths r hlen htr]
  simp [normalizeCell_nil]

theorem parseRow_render_sep {w : Char → Nat} (widths : List Nat) (r : List Str)
    (hd : ∀ c ∈ r, c ≠ [] ∧ ∀ x ∈ c, x = '-')
    (hp : ∀ c ∈ r, '|' ∉ c)
    (hzne : List.zipWith (padCellFun w 1) widths r ≠ []) :
    parseRow 1 (renderSepContent (List.zipWith (padCellFun w 1) widths r)) =
      [] :: (List.replicate (List.zipWith (padCellFun w 1) widths r).length ['-'] ++
        [([] : Str)]) := by
  unfold parseRow
  have hsplit := splitOn_decorated '-' (by decide)
    (List.zipWith (padCellFun w 1) widths r) hzne ?pipes
  case pipes =>
    intro c hc
    rcases mem_zipWith hc with ⟨target, -, orig, horig, rfl⟩
    exact padCellFun_no_pipe (hp orig horig)
  rw [show renderSepContent (List.zipWith (padCellFun w 1) widths r) =
    '|' :: '-' :: (List.intercalate ['-', '|', '-']
      (List.zipWith (padCellFun w 1) widths r) ++ ['-', '|']) from rfl, hsplit]
  rw [List.map_cons, List.map_append, List.map_map, normalizeCell_nil]
  simp only [Function.comp_def]
  rw [parse_padded_sep w widths r hd]
  simp [normalizeCell_nil]

theorem renderRowContent_contains (p : List Str) :
    (renderRowContent p).contains '|' = true := by
  simp [renderRowContent]

theorem importRows_render_data (w : Char → Nat) (widths : List Nat)
    (hw1 : 1 ≤ widths.length) :
    ∀ (k : Nat) (rs : List (List Str)), 2 ≤ k →
    (∀ r ∈ rs, r.length ≤ widths.length ∧ r ≠ [] ∧
      (∀ c ∈ r, trimStr c = c ∧ '|' ∉ c)) →
    importRows k ((padCellsFun w widths k rs).map renderRowContent) =
      rs.map (fun r => [] :: (r ++ [([] : Str)])) := by
  intro k rs
  induction rs generalizing k with
  | nil => intro _ _; rfl
  | cons r rs ih =>
    intro hk hprops
    rw [padCellsFun, List.map_cons, importRows,
      if_pos (renderRowContent_contains _)]
    have hr := hprops r (by simp)
    have hzne : List.zipWith (padCellFun w k) widths r ≠ [] := by
      intro hc
      have hlz := List.length_zipWith (padCellFun w k) widths r
      rw [hc] at hlz
      simp only [List.length_nil] at hlz
      have hr2 : r.length ≠ 0 := fun h0 => hr.2.1 (List.length_eq_zero.mp h0)
      omega
    rw [parseRow_render_data (by omega) widths r hr.1
      (fun c hc => (hr.2.2 c hc).1) (fun c hc => (hr.2.2 c hc).2) hzne,
      ih (k + 1) (by omega) (fun r2 h2 => hprops r2 (List.mem_cons_of_mem _ h2)),
      List.map_cons]

theorem maxRowLength_const {X : List (List Str)} {m : Nat} (hne : X ≠ [])
    (h : ∀ r ∈ X, r.length = m) : maxRowLength X = m := by
  induction X with
  | nil => cases hne rfl
  | cons r rs ih =>
    cases rs with
    | nil => simp [maxRowLength, h r (by simp)]
    | cons r2 rs2 =>
      have htail := ih (by simp) (fun q hq => h q (List.mem_cons_of_mem _ hq))
      simp only [maxRowLength, List.foldr_cons] at htail ⊢
      rw [htail, h r (by simp)]
      simp

theorem colMax_zero {w : Char → Nat} {X : List (List Str)} {j : Nat}
    (h : ∀ r ∈ X, cellWidthAt w j r = 0) : colMax w X j = 0 := by
  induction X with
  | nil => rfl
  | cons r rs ih =>
    simp only [colMax, List.foldr_cons] at ih ⊢
    rw [h r (by simp), ih (fun q hq => h q (List.mem_cons_of_mem _ hq))]
    simp

theorem addMissing_id {X : List (List Str)} {n : Nat}
    (h : ∀ r ∈ X, r.length = n) : addMissingCellColumns n X = X := by
  unfold addMissingCellColumns
  rw [List.map_congr_left (g := id) (fun r hr => by rw [h r hr]; simp),
    List.map_id]

theorem removeEdge_of_wrapped (w : Char → Nat) (cells2 : List (List Str)) (n : Nat)
    (hne : cells2 ≠ []) (h1 : 1 ≤ n) (hlen : ∀ r ∈ cells2, r.length = n) :
    removeEmptyEdgeColumns w
      (cells2.map (fun r => [] :: (r ++ [([] : Str)]))) = cells2 := by
  set X := cells2.map (fun r => [] :: (r ++ [([] : Str)])) with hX
  have hXne : X ≠ [] := by
    rw [hX]
    simpa using hne
  have hXlen : ∀ r ∈ X, r.length = n + 2 := by
    intro r hr
    rw [hX] at hr
    rcases List.mem_map.mp hr with ⟨r0, hr0, rfl⟩
    simp [hlen r0 hr0]
  have hw0len : (getColumnWidths w X).length = n + 2 := by
    rw [getColumnWidths_length, maxRowLength_const hXne hXlen]
  have hw0ne : (getColumnWidths w X).isEmpty = false := by
    cases hgw : getColumnWidths w X with
    | nil => rw [hgw] at hw0len; simp at hw0len
    | cons a t => rfl
  have hw0head : (getColumnWidths w X)[0]? = some 0 := by
    have h0 : (getColumnWidths w X).getD 0 0 = 0 := by
      rw [getColumnWidths_getD]
      apply colMax_zero
      intro r hr
      rw [hX] at hr
      rcases List.mem_map.mp hr with ⟨r0, hr0, rfl⟩
      simp [cellWidthAt, strWidth]
    rw [getElem?_eq_getD (by omega), h0]
  have hc1 : X.map (List.drop 1) = cells2.map (fun r => r ++ [([] : Str)]) := by
    rw [hX, List.map_map]
    rfl
  have hYne : cells2.map (fun r => r ++ [([] : Str)]) ≠ [] := by simpa using hne
  have hYlen : ∀ r ∈ cells2.map (fun r => r ++ [([] : Str)]), r.length = n + 1 := by
    intro r hr
    rcases List.mem_map.mp hr with ⟨r0, hr0, rfl⟩
    simp [hlen r0 hr0]
  have hw1len :
      (getColumnWidths w (cells2.map (fun r => r ++ [([] : Str)]))).length = n + 1 := by
    rw [getColumnWidths_length, maxRowLength_const hYne hYlen]
  have hw1ne :
      (getColumnWidths w (cells2.map (fun r => r ++ [([] : Str)]))).isEmpty = false := by
    cases hgw : getColumnWidths w (cells2.map (fun r => r ++ [([] : Str)])) with
    | nil => rw [hgw] at hw1len; simp at hw1len
    | cons a t => rfl
  have hw1last :
      (getColumnWidths w (cells2.map (fun r => r ++ [([] : Str)]))).getLast? = some 0 := by
    have hYlne : getColumnWidths w (cells2.map (fun r => r ++ [([] : Str)])) ≠ [] := by
      intro hc
      rw [hc] at hw1len
      simp at hw1len
    rw [getLast?_eq_getD hYlne, hw1len]
    congr 1
    rw [getColumnWidths_getD]
    apply colMax_zero
    intro r hr
    rcases List.mem_map.mp hr with ⟨r0, hr0, rfl⟩
    have he : (r0 ++ [([] : Str)])[n]? = some ([] : Str) := by
      have e : n = r0.length := (hlen r0 hr0).symm
      rw [e, List.getElem?_concat_length]
    simp [cellWidthAt, he, strWidth]
  simp only [removeEmptyEdgeColumns, hw0ne, Bool.false_eq_true, if_false,
    hw0head, if_pos, hc1, hw1ne, hw1last, hw1len, ite_true, ite_false]
  rw [List.map_map]
  rw [List.map_congr_left (g := id) (fun r hr => by
    show (if (r ++ [([] : Str)]).length = n + 1 then (r ++ [([] : Str)]).dropLast
      else (r ++ [([] : Str)])) = r
    rw [if_pos (by simp [hlen r hr]), List.dropLast_concat]), List.map_id]

/-- C3 (amended): idempotence.  If every line of the input contains a pipe
(so the separator line really is parsed at row index 1 and gets dash
normalization) and the parsed separator row spans all columns (so no column
escapes the separator), then feeding a successful output back into
`format_table` succeeds and reproduces it exactly. -/
theorem formatTable_idempotent (w : Char → Nat) (t out : Str)
    (cells : List (List Str))
    (himp : importTable w t = .ok cells)
    (hall : ∀ l ∈ rustLines t, l.contains '|' = true)
    (hsep1 : ∀ row1, cells[1]? = some row1 →
      row1.length = (getColumnWidths w cells).length)
    (hok : formatTable w t = some (.ok out)) :
    formatTable w out = some (.ok out) := by
  obtain ⟨htrim, cells', himp', hlen2, hcapR, hcapC, hcapT, hsep, hout⟩ :=
    formatTable_ok_inversion w t out hok
  rw [himp] at himp'
  injection himp' with e
  subst e
  have hclean := importTable_clean himp
  have hle : ∀ r ∈ cells, r.length ≤ (getColumnWidths w cells).length :=
    fun r hr => row_length_le_getColumnWidths w cells r hr
  have hcols1 : 1 ≤ (getColumnWidths w cells).length := one_le_cols_of_sep hsep
  rcases isSeparatorRow_facts hsep with ⟨row1, hrow1get, hrow1ne, hrow1cells⟩
  have hrow1len : row1.length = (getColumnWidths w cells).length :=
    hsep1 row1 hrow1get
  -- the separator row is fully normalized: every cell is a single dash
  have hcells_eq : cells =
      removeEmptyEdgeColumns w (importRows 0 (rustLines t)) := by
    simp only [importTable] at himp
    rw [dropWhile_eq_self_of_all (fun l hl => by rw [hall l hl]; rfl)] at himp
    split at himp
    · cases himp
    · injection himp with h
      exact h.symm
  have hrow1dash : ∀ c ∈ row1, c = ['-'] := by
    intro c hc
    rcases removeEmptyEdgeColumns_getElem w (importRows 0 (rustLines t)) 1 with
      ⟨F, hF, hFget⟩
    rw [hcells_eq, hFget, importRows_getElem_of_all hall 0 1] at hrow1get
    rcases Option.map_eq_some'.mp hrow1get with ⟨rawRow, hraw, hFrow⟩
    rcases Option.map_eq_some'.mp hraw with ⟨line1, hline1, hparse⟩
    have hcraw : c ∈ rawRow := by
      rw [← hFrow] at hc
      exact hF rawRow c hc
    rw [← hparse] at hcraw
    exact parseRow1_dash_norm (by simpa using hcraw)
      ((hrow1cells c hc).1) ((hrow1cells c hc).2)
  have hrow1rep : row1 = List.replicate (getColumnWidths w cells).length ['-'] := by
    have h := List.eq_replicate_of_mem hrow1dash
    rw [hrow1len] at h
    exact h
  -- the filled matrix
  have hrowlen2 : ∀ r ∈ addMissingCellColumns (getColumnWidths w cells).length cells,
      r.length = (getColumnWidths w cells).length :=
    addMissing_row_length _ cells hle
  have hcells2len :
      (addMissingCellColumns (getColumnWidths w cells).length cells).length =
        cells.length := by
    simp [addMissingCellColumns]
  have hcellsne : cells ≠ [] := by
    intro h
    rw [h] at hlen2
    simp at hlen2
  have hwidths2 : getColumnWidths w
      (addMissingCellColumns (getColumnWidths w cells).length cells) =
      getColumnWidths w cells := getColumnWidths_addMissing w cells hcellsne
  have hclean2 : ∀ row ∈ addMissingCellColumns (getColumnWidths w cells).length cells,
      ∀ c ∈ row, trimStr c = c ∧ '|' ∉ c ∧ '\n' ∉ c := by
    intro row hrow c hc
    rcases List.mem_map.mp hrow with ⟨r, hr, rfl⟩
    rcases List.mem_append.mp hc with h | h
    · exact hclean r hr c h
    · have := List.eq_of_mem_replicate h
      subst this
      exact ⟨rfl, by simp, by simp⟩
  have hc2row1 : (addMissingCellColumns (getColumnWidths w cells).length cells)[1]? =
      some row1 := by
    simp only [addMissingCellColumns, List.getElem?_map, hrow1get]
    simp [hrow1len]
  -- destructure the filled matrix
  obtain ⟨r0, rest0, hc2eq⟩ : ∃ a l,
      addMissingCellColumns (getColumnWidths w cells).length cells = a :: l := by
    apply List.exists_cons_of_ne_nil
    intro h
    rw [h] at hcells2len
    rw [← hcells2len] at hlen2
    simp at hlen2
  obtain ⟨r1, rrest, hrest0⟩ : ∃ a l, rest0 = a :: l := by
    apply List.exists_cons_of_ne_nil
    intro h
    rw [h] at hc2eq
    rw [hc2eq] at hcells2len
    rw [← hcells2len] at hlen2
    simp at hlen2
  rw [hrest0] at hc2eq
  have hr1row1 : r1 = row1 := by
    rw [hc2eq] at hc2row1
    simpa using hc2row1
  rw [hr1row1] at hc2eq
  -- properties of the three groups of rows
  have hr0props : r0.length ≤ (getColumnWidths w cells).length ∧ r0 ≠ [] ∧
      ∀ c ∈ r0, trimStr c = c ∧ '|' ∉ c := by
    have hmem : r0 ∈ addMissingCellColumns (getColumnWidths w cells).length cells := by
      rw [hc2eq]
      simp
    refine ⟨le_of_eq (hrowlen2 r0 hmem), ?_, fun c hc =>
      ⟨(hclean2 r0 hmem c hc).1, (hclean2 r0 hmem c hc).2.1⟩⟩
    intro h
    have := hrowlen2 r0 hmem
    rw [h] at this
    simp at this
    omega
  have hrrestprops : ∀ r ∈ rrest, r.length ≤ (getColumnWidths w cells).length ∧
      r ≠ [] ∧ ∀ c ∈ r, trimStr c = c ∧ '|' ∉ c := by
    intro r hr
    have hmem : r ∈ addMissingCellColumns (getColumnWidths w cells).length cells := by
      rw [hc2eq]
      simp [hr]
    refine ⟨le_of_eq (hrowlen2 r hmem), ?_, fun c hc =>
      ⟨(hclean2 r hmem c hc).1, (hclean2 r hmem c hc).2.1⟩⟩
    intro h
    have := hrowlen2 r hmem
    rw [h] at this
    simp at this
    omega
  have hrow1props : row1.length ≤ (getColumnWidths w cells).length ∧
      (∀ c ∈ row1, c ≠ [] ∧ ∀ x ∈ c, x = '-') ∧ ∀ c ∈ row1, '|' ∉ c := by
    refine ⟨le_of_eq hrow1len, hrow1cells, fun c hc => ?_⟩
    rw [hrow1dash c hc]
    decide
  -- lengths of the padded rows
  have hzlen : ∀ r : List Str, r.length = (getColumnWidths w cells).length →
      (List.zipWith (padCellFun w 1) (getColumnWidths w cells) r).length =
        (getColumnWidths w cells).length := by
    intro r hr
    rw [List.length_zipWith, hr]
    simp
  -- nonemptiness of padded rows
  have hzne : ∀ (i : Nat) (r : List Str), r.length = (getColumnWidths w cells).length →
      List.zipWith (padCellFun w i) (getColumnWidths w cells) r ≠ [] := by
    intro i r hr hcon
    have := List.length_zipWith (padCellFun w i) (getColumnWidths w cells) r
    rw [hcon, hr] at this
    simp at this
    omega
  -- the padded matrix, unfolded
  have hpadded : padCellsFun w (getColumnWidths w cells) 0
      (addMissingCellColumns (getColumnWidths w cells).length cells) =
      List.zipWith (padCellFun w 0) (getColumnWidths w cells) r0 ::
      List.zipWith (padCellFun w 1) (getColumnWidths w cells) row1 ::
      padCellsFun w (getColumnWidths w cells) 2 rrest := by
    rw [hc2eq, padCellsFun, padCellsFun]
  -- newline freedom of all padded cells
  have hnlpad : ∀ r ∈ List.zipWith (padCellFun w 0) (getColumnWidths w cells) r0 ::
      List.zipWith (padCellFun w 1) (getColumnWidths w cells) row1 ::
      padCellsFun w (getColumnWidths w cells) 2 rrest, ∀ c ∈ r, '\n' ∉ c := by
    intro r hr c hc
    rw [← hpadded] at hr
    rcases padCellsFun_mem hr with ⟨i, row, hrowi, rfl⟩
    rcases mem_zipWith hc with ⟨target, -, orig, horigmem, rfl⟩
    exact padCellFun_no_newline
      ((hclean2 row (List.getElem?_mem hrowi) orig horigmem).2.2)
  -- the lines of the output
  have hlines : rustLines out =
      renderRowContent (List.zipWith (padCellFun w 0) (getColumnWidths w cells) r0) ::
      renderSepContent (List.zipWith (padCellFun w 1) (getColumnWidths w cells) row1) ::
      (padCellsFun w (getColumnWidths w cells) 2 rrest).map renderRowContent := by
    rw [hout, hpadded, rustLines_renderOutput _ _ _ hnlpad]
  -- the re-import returns the filled matrix
  have himp2 : importTable w out =
      .ok (addMissingCellColumns (getColumnWidths w cells).length cells) := by
    simp only [importTable, hlines]
    rw [List.dropWhile_cons_of_neg (by simp [renderRowContent])]
    rw [if_neg (by simp)]
    rw [importRows, if_pos (renderRowContent_contains _)]
    rw [importRows, if_pos (by simp [renderSepContent])]
    rw [parseRow_render_data (by omega) (getColumnWidths w cells) r0
      hr0props.1 (fun c hc => (hr0props.2.2 c hc).1)
      (fun c hc => (hr0props.2.2 c hc).2)
      (hzne 0 r0 (hrowlen2 r0 (by rw [hc2eq]; simp)))]
    rw [parseRow_render_sep (getColumnWidths w cells) row1 hrow1props.2.1
      hrow1props.2.2 (hzne 1 row1 hrow1len)]
    rw [importRows_render_data w (getColumnWidths w cells) hcols1 2 rrest
      (by omega) hrrestprops]
    rw [hzlen row1 hrow1len, ← hrow1rep]
    rw [show ([] :: (r0 ++ [([] : Str)])) :: ([] :: (row1 ++ [([] : Str)])) ::
        List.map (fun r => [] :: (r ++ [([] : Str)])) rrest =
        List.map (fun r => [] :: (r ++ [([] : Str)])) (r0 :: row1 :: rrest) from rfl,
      ← hc2eq]
    rw [removeEdge_of_wrapped w _ (getColumnWidths w cells).length
      (by rw [hc2eq]; simp) hcols1 hrowlen2]
  -- separator validity of the filled matrix
  have hsep2 : isSeparatorRow
      (addMissingCellColumns (getColumnWidths w cells).length cells) 1 = true := by
    unfold isSeparatorRow
    rw [hc2row1]
    show (!row1.isEmpty && row1.all (fun cell => !cell.isEmpty && cell.all (fun c => c == '-'))) = true
    have h1 : row1.isEmpty = false := by
      cases hx : row1 with
      | nil => exact absurd hx hrow1ne
      | cons a l => rfl
    rw [h1]
    simp only [Bool.not_false, Bool.true_and, List.all_eq_true]
    intro c hc
    rw [hrow1dash c hc]
    decide
  -- the trimmed output is nonempty
  have htrim2 : (trimStr out).isEmpty = false := by
    have hmem : '|' ∈ out := by
      rw [hout, hpadded]
      show '|' ∈ (renderRowContent _ ++ ['\n']) ++ _
      apply List.mem_append_left
      apply List.mem_append_left
      simp [renderRowContent]
    have := trimStr_ne_nil_of_mem hmem (by decide)
    cases hx : trimStr out with
    | nil => exact absurd hx this
    | cons a l => rfl
  -- assemble the second run
  simp only [formatTable, htrim2, Bool.false_eq_true, if_false, himp2]
  rw [if_neg (by rw [hcells2len]; omega)]
  rw [if_neg ?caps]
  case caps =>
    rw [hcells2len, hwidths2]
    push_neg
    exact ⟨hcapR, hcapC, hcapT⟩
  rw [hsep2]
  simp only [Bool.not_true, Bool.false_eq_true, if_false]
  rw [hwidths2, addMissing_id hrowlen2]
  rw [padCells_eq_some w (getColumnWidths w cells)
    (addMissingCellColumns (getColumnWidths w cells).length cells)
    (fun r hr => le_of_eq (hrowlen2 r hr)) 0]
  show some (Except.ok (renderOutput (padCellsFun w (getColumnWidths w cells) 0
    (addMissingCellColumns (getColumnWidths w cells).length cells)))) =
    some (Except.ok out)
  rw [← hout]

/-- C3 witness: a fully aligned concrete table formats, and its output
formats to itself. -/
theorem formatTable_idempotent_witness :
    formatTable w1 (str "|a|bb|\n|-|-|\n|c|d|") =
      some (Except.ok (str "| a | bb |\n|---|----|\n| c | d  |\n")) ∧
    formatTable w1 (str "| a | bb |\n|---|----|\n| c | d  |\n") =
      some (Except.ok (str "| a | bb |\n|---|----|\n| c | d  |\n")) :=
  ⟨by decide,
   formatTable_idempotent w1 (str "|a|bb|\n|-|-|\n|c|d|")
     (str "| a | bb |\n|---|----|\n| c | d  |\n")
     [[['a'], ['b', 'b']], [['-'], ['-']], [['c'], ['d']]]
     (by decide) (by decide)
     (by
       intro row1 h
       injection h with h2
       subst h2
       decide)
     (by decide)⟩

end Ftb
